import Mathlib

/-!
# Kernel-Ruler: the reactive core, the event decoder, the termination controller
and the tree-linking step of `src/main.go`, embedded in Lean.

Conventions of the embedding.

* Go `int` values are `Int`, `uint32` values are `Nat`; bytes are `Fin 256`.  The
  64-bit counters and clock readings are left unbounded: they count messages and
  nanoseconds and stay far below 2^63.
* A Go runtime panic (slice bounds out of range) is a result of its own:
  `none` for `Update`, `DecodeResult.panicked` for the decoder.
* `time.Time` values are abstract timestamps (`Nat`).
* Pointers `*processNode` are named by the key under which the node sits in the
  `nodes` map of `buildTreeFromProc` (every node is allocated exactly once, under
  the key equal to its `PID`).
* The widgets of the `bubbles` library (`list.Model`, `spinner.Model`,
  `viewport.Model`, `help.Model`) are not part of this repository.  Of the list
  widget the embedding keeps what `Update` reads and writes; the spinner and the
  viewport carry no state that `Update` inspects and are left out.
-/

namespace KernelRuler

/-! ## Views / State -/

/-- The three views of `type viewState int`. -/
inductive viewState where
  | listView
  | detailsView
  | treeView
  deriving DecidableEq, Repr

/-- The Go struct `processNode`; `Children` holds pointers, named by map key. -/
structure processNode where
  PID : Int
  PPID : Int
  Comm : String
  Children : List Int
  deriving DecidableEq, Repr

/-- The Go struct `processItem`. -/
structure processItem where
  PID : Nat
  Comm : String
  Time : Nat
  deriving DecidableEq, Repr

/-- The Go struct `processDetails`. -/
structure processDetails where
  PID : String
  PPID : String
  User : String
  Cmdline : String
  Environ : String
  Status : String
  deriving DecidableEq, Repr

/-- A `[]*processNode` value: the root pointers together with the nodes they
point into. -/
structure Forest where
  nodes : List processNode
  roots : List Int
  deriving DecidableEq, Repr

/-- The messages `Update` switches on: `tea.WindowSizeMsg`, `treeMsg`,
`newProcessMsg`, `tickMsg`, `tea.KeyMsg` (by the value of `msg.String()`), and
any other message (those the widgets send to themselves). -/
inductive Msg where
  | windowSize (width height : Int)
  | tree (t : Forest)
  | newProcess (PID : Nat) (Comm : String) (Time : Nat)
  | tick
  | key (s : String)
  | other
  deriving DecidableEq, Repr

/-! ## Keymap -/

/-- A `key.Binding`: its keys and whether it is enabled. -/
structure Binding where
  keys : List String
  enabled : Bool
  deriving DecidableEq, Repr

/-- The method `Binding.SetEnabled`. -/
def Binding.SetEnabled (b : Binding) (v : Bool) : Binding :=
  { b with enabled := v }

/-- The function `key.Matches` for one binding: the key is one of the binding's
keys and the binding is enabled. -/
def Matches (k : String) (b : Binding) : Bool :=
  b.keys.any (fun v => decide (k = v) && b.enabled)

/-- The Go struct `keyMap`. -/
structure keyMap where
  ToggleView : Binding
  Select : Binding
  Back : Binding
  BackCustom : Binding
  Kill : Binding
  Quit : Binding
  Up : Binding
  Down : Binding
  Search : Binding
  Help : Binding
  deriving DecidableEq, Repr

/-- The variable `defaultKeys`; `Back` is created with `key.WithDisabled()`. -/
def defaultKeys : keyMap where
  ToggleView := ⟨["t"], true⟩
  Select := ⟨["enter"], true⟩
  Back := ⟨["esc"], false⟩
  BackCustom := ⟨["c"], true⟩
  Kill := ⟨["x"], true⟩
  Quit := ⟨["q", "ctrl+c"], true⟩
  Up := ⟨["up", "k"], true⟩
  Down := ⟨["down", "j"], true⟩
  Search := ⟨["/"], true⟩
  Help := ⟨["?"], true⟩

/-! ## The list widget -/

/-- The values of `list.FilterState`. -/
inductive FilterState where
  | Unfiltered
  | Filtering
  | FilterApplied
  deriving DecidableEq, Repr

/-- Modelled from the spec: the type `list.Model` of the `bubbles` library is not
in the repository.  The Bounded Recent-Process Buffer is an ordered sequence in
arrival order (`items`); the highlighted position (`index`), the filter state and
the filtered view belong to the presentation layer. -/
structure ListModel where
  items : List processItem
  filteredItems : List processItem
  filterState : FilterState
  index : Nat
  filteringEnabled : Bool
  deriving DecidableEq, Repr

/-- Modelled from the spec: `Items()` is the whole buffer, in arrival order. -/
def ListModel.Items (l : ListModel) : List processItem := l.items

/-- Modelled from the spec: `Index()` is the highlighted position. -/
def ListModel.Index (l : ListModel) : Nat := l.index

/-- Modelled from the spec: the items on display, the filtered view once a filter
is in use. -/
def ListModel.VisibleItems (l : ListModel) : List processItem :=
  if l.filterState = FilterState.Unfiltered then l.items else l.filteredItems

/-- Modelled from the spec: `SelectedItem()` is the highlighted entry of the
items on display, if there is one. -/
def ListModel.SelectedItem (l : ListModel) : Option processItem :=
  l.VisibleItems.get? l.index

/-- Modelled from the spec: `insert(entry)` at a position; at or past the end it
appends.  The highlighted position is kept. -/
def ListModel.InsertItem (l : ListModel) (index : Nat) (item : processItem) : ListModel :=
  { l with items := l.items.take index ++ item :: l.items.drop index }

/-- Modelled from the spec: `removeAt(index)` takes the entry at that position out
of the buffer (and out of the filtered view while a filter is in use); the
highlighted position is kept. -/
def ListModel.RemoveItem (l : ListModel) (index : Nat) : ListModel :=
  if l.filterState = FilterState.Unfiltered then
    { l with items := l.items.eraseIdx index }
  else
    let filtered := l.filteredItems.eraseIdx index
    if filtered = [] then
      { l with items := l.items.eraseIdx index, filteredItems := [],
               filterState := FilterState.Unfiltered }
    else
      { l with items := l.items.eraseIdx index, filteredItems := filtered }

/-- Modelled from the spec: `SetFilteringEnabled`; switching filtering off drops
the filter. -/
def ListModel.SetFilteringEnabled (l : ListModel) (v : Bool) : ListModel :=
  if v then { l with filteringEnabled := true }
  else { l with filteringEnabled := false, filteredItems := [],
                filterState := FilterState.Unfiltered }

/-- What the program cannot see into: the key handling of the list widget, its
reaction to its own messages, and the read of process details from `/proc`. -/
structure Widgets where
  listKey : String → ListModel → ListModel
  listOther : ListModel → ListModel
  getProcessDetails : Nat → processDetails

/-- Modelled from the spec: `list.Model.Update`.  Key input and the widget's own
messages are handled by the widget; the program's messages (`NewProcessEvent`,
`Tick`, resize, tree result) leave the buffer, the highlighted position and the
filter as they are. -/
def ListModel.Update (w : Widgets) (l : ListModel) (msg : Msg) : ListModel :=
  match msg with
  | Msg.key s => w.listKey s l
  | Msg.other => w.listOther l
  | _ => l

/-! ## Commands and effects -/

/-- The commands that `Update` collects in `cmds`: the result of
`m.list.InsertItem`, `tick()`, `buildTreeCmd()`, and the commands returned by the
`Update` of the spinner, of the list and of the viewport. -/
inductive CmdAtom where
  | insertItem
  | tick
  | buildTree
  | spinner
  | list
  | viewport
  deriving DecidableEq, Repr

/-- The `tea.Cmd` returned by `Update`: `nil`, `tea.Quit`, or
`tea.Batch(cmds...)`. -/
inductive Cmd where
  | nil
  | Quit
  | Batch (cmds : List CmdAtom)
  deriving DecidableEq, Repr

/-- What `Update` starts besides returning: `go gracefulKill(pid, timeout)`, the
timeout in nanoseconds. -/
inductive Effect where
  | goGracefulKill (pid : Int) (timeout : Int)
  deriving DecidableEq, Repr

/-- The constant `time.Millisecond`, in nanoseconds. -/
def Millisecond : Int := 1000000

/-! ## Model -/

/-- The Go struct `model` (without the spinner and the viewport; of `help` the
fields `ShowAll` and `Width`). -/
structure model where
  state : viewState
  list : ListModel
  helpShowAll : Bool
  helpWidth : Int
  keys : keyMap
  tree : Forest
  details : processDetails
  history : List Int
  processCount : Int
  width : Int
  height : Int
  confirmingKill : Bool
  confirmPid : Int
  confirmText : String
  deriving DecidableEq, Repr

/-- The function `initialModel`: list view, empty list with filtering enabled,
`history: make([]int, 80)`, every other field at its zero value. -/
def initialModel : model where
  state := viewState.listView
  list := ⟨[], [], FilterState.Unfiltered, 0, true⟩
  helpShowAll := false
  helpWidth := 0
  keys := defaultKeys
  tree := ⟨[], []⟩
  details := ⟨"", "", "", "", "", ""⟩
  history := List.replicate 80 0
  processCount := 0
  width := 0
  height := 0
  confirmingKill := false
  confirmPid := 0
  confirmText := ""

/-- The method `model.setViewState`. -/
def model.setViewState (m : model) (s : viewState) : model :=
  { m with
    state := s
    keys :=
      { m.keys with
        ToggleView := m.keys.ToggleView.SetEnabled (decide (s ≠ viewState.detailsView))
        Select := m.keys.Select.SetEnabled (decide (s = viewState.listView))
        Kill := m.keys.Kill.SetEnabled (decide (s = viewState.listView))
        Back := m.keys.Back.SetEnabled
          (decide (s = viewState.detailsView) || decide (s = viewState.treeView))
        BackCustom := m.keys.BackCustom.SetEnabled
          (decide (s = viewState.detailsView) || decide (s = viewState.treeView)) }
    list := m.list.SetFilteringEnabled (decide (s = viewState.listView)) }

/-! ## Update -/

/-- The tail of `Update`, reached by every branch that does not return: the
spinner, then the list in list view, then the viewport in tree view, and
`tea.Batch(cmds...)`. -/
def Update.tail (w : Widgets) (m : model) (msg : Msg) (cmds : List CmdAtom) :
    model × Cmd × List Effect :=
  let cmds := cmds ++ [CmdAtom.spinner]
  let m1 : model :=
    if m.state = viewState.listView then { m with list := m.list.Update w msg } else m
  let cmds := if m.state = viewState.listView then cmds ++ [CmdAtom.list] else cmds
  let cmds := if m1.state = viewState.treeView then cmds ++ [CmdAtom.viewport] else cmds
  (m1, Cmd.Batch cmds, [])

/-- The key handling of `Update` while `m.confirmingKill` holds. -/
def Update.confirming (m : model) (s : String) : model × Cmd × List Effect :=
  if s = "y" ∨ s = "Y" then
    let l :=
      if m.list.Index < m.list.Items.length then m.list.RemoveItem m.list.Index
      else m.list
    ({ m with list := l, confirmingKill := false }, Cmd.nil,
      [Effect.goGracefulKill m.confirmPid (1500 * Millisecond)])
  else if s = "n" ∨ s = "N" ∨ s = "esc" then
    ({ m with confirmingKill := false }, Cmd.nil, [])
  else
    (m, Cmd.nil, [])

/-- The key handling of `Update` in `detailsView` and `treeView`. -/
def Update.detailsOrTree (w : Widgets) (m : model) (s : String) :
    model × Cmd × List Effect :=
  if Matches s m.keys.BackCustom then
    (m.setViewState viewState.listView, Cmd.nil, [])
  else if Matches s m.keys.Back then
    (m.setViewState viewState.listView, Cmd.nil, [])
  else if Matches s m.keys.Quit then
    (m, Cmd.Quit, [])
  else if m.state = viewState.treeView ∧ Matches s m.keys.ToggleView = true then
    (m.setViewState viewState.listView, Cmd.nil, [])
  else
    Update.tail w m (Msg.key s) []

/-- The key handling of `Update` in `listView`. -/
def Update.inList (w : Widgets) (m : model) (s : String) : model × Cmd × List Effect :=
  if m.list.filterState ≠ FilterState.Filtering then
    if Matches s m.keys.Quit then
      (m, Cmd.Quit, [])
    else if Matches s m.keys.ToggleView then
      Update.tail w (m.setViewState viewState.treeView) (Msg.key s) [CmdAtom.buildTree]
    else if Matches s m.keys.Select then
      match m.list.SelectedItem with
      | some item =>
        Update.tail w
          ({ m with details := w.getProcessDetails item.PID }.setViewState
            viewState.detailsView) (Msg.key s) []
      | none => Update.tail w m (Msg.key s) []
    else if Matches s m.keys.Kill then
      match m.list.SelectedItem with
      | some item =>
        ({ m with
            confirmingKill := true
            confirmPid := (item.PID : Int)
            confirmText := "Kill PID " ++ toString item.PID ++ " (" ++ item.Comm ++ ")?" },
          Cmd.nil, [])
      | none => Update.tail w m (Msg.key s) []
    else
      Update.tail w m (Msg.key s) []
  else
    Update.tail w m (Msg.key s) []

/-- The method `model.Update`.  The result is `none` when the Go code panics
(`m.history[1:]` on an empty history).  The layout arithmetic of the
`tea.WindowSizeMsg` branch only sizes the list and the viewport, which the
embedding does not carry. -/
def Update (w : Widgets) (m : model) (msg : Msg) : Option (model × Cmd × List Effect) :=
  match msg with
  | Msg.windowSize width height =>
    some ({ m with width := width, height := height, helpWidth := width }, Cmd.nil, [])
  | Msg.tree t =>
    some ({ m with tree := t }, Cmd.nil, [])
  | Msg.newProcess pid comm time =>
    let item : processItem := ⟨pid, comm, time⟩
    let l1 := m.list.InsertItem m.list.Items.length item
    let l2 := if l1.Items.length > 500 then l1.RemoveItem 0 else l1
    some (Update.tail w { m with list := l2, processCount := m.processCount + 1 } msg
      [CmdAtom.insertItem])
  | Msg.tick =>
    match m.history with
    | [] => none
    | _ :: rest =>
      some (Update.tail w
        { m with history := rest ++ [m.processCount], processCount := 0 } msg
        [CmdAtom.tick])
  | Msg.key s =>
    if m.confirmingKill then
      some (Update.confirming m s)
    else if Matches s m.keys.Help then
      some ({ m with helpShowAll := !m.helpShowAll }, Cmd.nil, [])
    else
      match m.state with
      | viewState.detailsView => some (Update.detailsOrTree w m s)
      | viewState.treeView => some (Update.detailsOrTree w m s)
      | viewState.listView => some (Update.inList w m s)
  | Msg.other =>
    some (Update.tail w m msg [])

/-- The model after a sequence of messages, each handled by `Update` in arrival
order; `none` when one of them panics. -/
def runMsgs (w : Widgets) (m : model) : List Msg → Option model
  | [] => some m
  | msg :: rest =>
    match Update w m msg with
    | none => none
    | some r => runMsgs w r.1 rest

/-- The message `newProcessMsg` carrying the fields of an entry. -/
def newProcessMsg (e : processItem) : Msg := Msg.newProcess e.PID e.Comm e.Time

/-! ## The bounded recent-process buffer -/

/-- One insertion into the buffer as `Update` performs it: append, then drop the
entry at index 0 when the length exceeds 500. -/
def insertBounded (xs : List processItem) (e : processItem) : List processItem :=
  if (xs ++ [e]).length > 500 then (xs ++ [e]).eraseIdx 0 else xs ++ [e]

/-! ## The rate history -/

/-- What the reader and the timer feed to `Update`: a `NewProcessEvent` or a
`Tick`. -/
inductive Feed where
  | event (e : processItem)
  | tick
  deriving DecidableEq, Repr

/-- The message of a feed item. -/
def Feed.toMsg : Feed → Msg
  | Feed.event e => newProcessMsg e
  | Feed.tick => Msg.tick

/-- Whether a feed item is a `NewProcessEvent`. -/
def Feed.isEvent : Feed → Bool
  | Feed.event _ => true
  | Feed.tick => false

/-- The number of `NewProcessEvent` items after the last `Tick` of a feed (after
its start when it has no `Tick`). -/
def eventsSinceTick (feed : List Feed) : Nat :=
  (feed.reverse.takeWhile Feed.isEvent).length

/-! ## Key handling -/

/-- Widgets that leave the list as it is and report empty details: the concrete
widgets of the examples. -/
def idleWidgets : Widgets where
  listKey := fun _ l => l
  listOther := fun l => l
  getProcessDetails := fun _ => ⟨"", "", "", "", "", ""⟩

/-- A model is reachable when `Update` produces it from the initial model by
some sequence of messages. -/
def Reachable (w : Widgets) (m : model) : Prop :=
  ∃ msgs, runMsgs w initialModel msgs = some m

/-- The state of the key bindings that `setViewState` maintains: the keys of the
bindings are those of `defaultKeys`, `Quit` is enabled, `Back` and `BackCustom`
are enabled outside the list view, `ToggleView` is enabled in the tree view and
disabled in the details view. -/
def keysInSync (m : model) : Prop :=
  m.keys.Quit = ⟨["q", "ctrl+c"], true⟩ ∧
  m.keys.Help.keys = ["?"] ∧
  m.keys.Back.keys = ["esc"] ∧
  m.keys.BackCustom.keys = ["c"] ∧
  m.keys.ToggleView.keys = ["t"] ∧
  (m.state ≠ viewState.listView →
    m.keys.Back.enabled = true ∧ m.keys.BackCustom.enabled = true) ∧
  (m.state = viewState.treeView → m.keys.ToggleView.enabled = true) ∧
  (m.state = viewState.detailsView → m.keys.ToggleView.enabled = false)

/-- The initial model with a confirmation open for pid 7. -/
def confirmingModel : model :=
  { initialModel with
    confirmingKill := true, confirmPid := 7, confirmText := "Kill PID 7 (sh)?" }

/-- The messages that lead from the initial model into the details view: one
`NewProcessEvent`, then `enter`. -/
def toDetails : List Msg := [Msg.newProcess 7 "sh" 0, Msg.key "enter"]

/-- The model after `toDetails`. -/
def detailsModel : model :=
  { initialModel with
    state := viewState.detailsView
    list := ⟨[⟨7, "sh", 0⟩], [], FilterState.Unfiltered, 0, false⟩
    processCount := 1
    keys :=
      { defaultKeys with
        ToggleView := ⟨["t"], false⟩
        Select := ⟨["enter"], false⟩
        Kill := ⟨["x"], false⟩
        Back := ⟨["esc"], true⟩
        BackCustom := ⟨["c"], true⟩ } }

/-- The entry of the process with the given pid, command `sh`, timestamp 0. -/
def shItem (pid : Nat) : processItem := ⟨pid, "sh", 0⟩

/-- The entries of the pids 1 to 500, in arrival order. -/
def fullBuffer : List processItem := (List.range' 1 500).map shItem

/-- The initial model after the 500 arrivals of `fullBuffer`. -/
def atCapacity : model :=
  { initialModel with
    list := { initialModel.list with items := fullBuffer }
    processCount := 500 }

/-- The model `atCapacity` after the kill key `x`: a confirmation for the
highlighted entry, that of pid 1 at index 0. -/
def confirmAtCapacity : model :=
  { atCapacity with
    confirmingKill := true, confirmPid := 1, confirmText := "Kill PID 1 (sh)?" }

/-- The model `confirmAtCapacity` after the arrival of pid 501: the buffer holds
the pids 2 to 501. -/
def afterArrival : model :=
  { confirmAtCapacity with
    list := { confirmAtCapacity.list with items := (List.range' 2 500).map shItem }
    processCount := 501 }

/-! ## The event decoder and the read loop -/

/-- A byte. -/
abbrev Byte := Fin 256

/-- A Go string, a sequence of bytes, as the string whose characters have the
bytes as code points. -/
def goString (bs : List Byte) : String :=
  String.mk (bs.map (fun b => Char.ofNat b.val))

/-- The function `bytes.IndexByte`: the index of the first `c` in `b`, or -1. -/
def IndexByte (b : List Byte) (c : Byte) : Int :=
  if b.indexOf c < b.length then (b.indexOf c : Int) else -1

/-- The variable `eventBpf` of the reader goroutine: `PID uint32`, four bytes of
padding, `Comm [16]byte`. -/
structure eventBpf where
  PID : Nat
  Comm : List Byte
  deriving DecidableEq, Repr

/-- The little-endian `uint32` of four bytes. -/
def leUint32 (b0 b1 b2 b3 : Byte) : Nat :=
  b0.val + 256 * b1.val + 65536 * b2.val + 16777216 * b3.val

/-- The call `binary.Read(bytes.NewReader(raw), binary.LittleEndian, &eventBpf)`:
it reads the 24 bytes of the struct, and fails (`none`) when the sample has fewer. -/
def binaryRead (raw : List Byte) : Option eventBpf :=
  match raw with
  | b0 :: b1 :: b2 :: b3 :: _ :: _ :: _ :: _ :: rest =>
    if rest.length < 16 then none else some ⟨leUint32 b0 b1 b2 b3, rest.take 16⟩
  | _ => none

/-- What one turn of the read loop does with a sample: it drops the sample
(`continue`), sends a message, or panics. -/
inductive DecodeResult where
  | dropped
  | sent (msg : Msg)
  | panicked
  deriving DecidableEq, Repr

/-- The body of the read loop for one sample, read at time `now`: `binary.Read`,
then `Comm[:bytes.IndexByte(Comm[:], 0)]`, which panics for the index -1. -/
def decode (raw : List Byte) (now : Nat) : DecodeResult :=
  match binaryRead raw with
  | none => DecodeResult.dropped
  | some ev =>
    let i := IndexByte ev.Comm 0
    if i < 0 then DecodeResult.panicked
    else DecodeResult.sent (Msg.newProcess ev.PID (goString (ev.Comm.take i.toNat)) now)

/-- What `rd.Read()` returns: a record with its raw sample (and the time at which
the loop handles it), the error `perf.ErrClosed`, or another error. -/
inductive ReadResult where
  | record (raw : List Byte) (now : Nat)
  | closed
  | failed
  deriving DecidableEq, Repr

/-- How the read loop stands after the reads it was given: still reading, returned
(reader closed), or crashed by a panic. -/
inductive LoopState where
  | reading
  | returned
  | panicked
  deriving DecidableEq, Repr

/-- The read loop of the reader goroutine over the successive results of
`rd.Read()`: the messages sent with `p.Send`, in order, and the state of the loop. -/
def readLoop : List ReadResult → List Msg × LoopState
  | [] => ([], LoopState.reading)
  | ReadResult.closed :: _ => ([], LoopState.returned)
  | ReadResult.failed :: rest => readLoop rest
  | ReadResult.record raw now :: rest =>
    match decode raw now with
    | DecodeResult.dropped => readLoop rest
    | DecodeResult.panicked => ([], LoopState.panicked)
    | DecodeResult.sent msg => (msg :: (readLoop rest).1, (readLoop rest).2)

/-- The decoding that the wire format asks for: for a record of at least 24
bytes, the pid of bytes 0..3 and the bytes of the field 8..23 up to the first
zero byte, all 16 when there is none. -/
def decodeSpec (raw : List Byte) (now : Nat) : Option Msg :=
  if raw.length < 24 then none
  else some (Msg.newProcess
    (leUint32 (raw.getD 0 0) (raw.getD 1 0) (raw.getD 2 0) (raw.getD 3 0))
    (goString (((raw.drop 8).take 16).takeWhile (fun b => b ≠ 0))) now)

/-- A record of 24 bytes: pid 7, padding, and a command field of sixteen `a`
with no zero byte. -/
def unterminated : List Byte := [7, 0, 0, 0] ++ [0, 0, 0, 0] ++ List.replicate 16 97

/-- A record of 24 bytes: pid 9, padding, and the command field `sh` followed by
zero bytes. -/
def terminated : List Byte := [9, 0, 0, 0] ++ [0, 0, 0, 0] ++ [115, 104] ++ List.replicate 14 0

/-! ## The termination controller -/

/-- The two signals that `gracefulKill` sends. -/
inductive Signal where
  | SIGTERM
  | SIGKILL
  deriving DecidableEq, Repr

/-- What `gracefulKill` does to the process, with the clock reading at which it
does it: `syscall.Kill(pid, sig)`, or the liveness poll `processAlive(pid)` and
its answer. -/
inductive KillEvent where
  | signal (sig : Signal) (pid : Int) (time : Int)
  | poll (pid : Int) (time : Int) (alive : Bool)
  deriving DecidableEq, Repr

/-- Whether an event is the sending of the given signal. -/
def KillEvent.isSignal (sig : Signal) : KillEvent → Bool
  | KillEvent.signal s _ _ => decide (s = sig)
  | KillEvent.poll _ _ _ => false

/-- The world of `gracefulKill`: the clock reading when it starts (nanoseconds),
the liveness oracle (what `processAlive` answers at a clock reading), and by how
much the k-th `time.Sleep` oversleeps.  The clock advances in `time.Sleep` only. -/
structure World where
  start : Int
  processAlive : Int → Bool
  oversleep : Nat → Nat

/-- The loop `for time.Now().Before(deadline)` of `gracefulKill`, with the clock
reading `now`, the number `k` of sleeps so far and the trace so far.  The result
tells whether the function returned from inside the loop, the clock reading at
the end and the trace; `none` when the fuel does not suffice. -/
def gracefulKill.loop (w : World) (pid : Int) (deadline : Int) :
    Nat → Int → Nat → List KillEvent → Option (Bool × Int × List KillEvent)
  | 0, _, _, _ => none
  | fuel + 1, now, k, trace =>
    if now < deadline then
      if !w.processAlive now then
        some (true, now, trace ++ [KillEvent.poll pid now false])
      else
        gracefulKill.loop w pid deadline fuel (now + 150 * Millisecond + w.oversleep k)
          (k + 1) (trace ++ [KillEvent.poll pid now true])
    else
      some (false, now, trace)

/-- The function `gracefulKill`: the trace of what it did when it has returned.
The loop is given the fuel `timeout / 150ms + 2`. -/
def gracefulKill (w : World) (pid : Int) (timeout : Int) : Option (List KillEvent) :=
  let trace := [KillEvent.signal Signal.SIGTERM pid w.start]
  let deadline := w.start + timeout
  match gracefulKill.loop w pid deadline (timeout.toNat / 150000000 + 2) w.start 0 trace with
  | none => none
  | some (true, _, trace) => some trace
  | some (false, now, trace) => some (trace ++ [KillEvent.signal Signal.SIGKILL pid now])

/-- The clock reading at the `k`-th turn of the loop of `gracefulKill`: the start,
and after each `time.Sleep` 150 ms more, plus what that sleep overslept. -/
def pollTime (w : World) : Nat → Int
  | 0 => w.start
  | k + 1 => pollTime w k + 150 * Millisecond + w.oversleep k

/-- The liveness poll of the `k`-th turn of the loop: made at the clock reading
of that turn, with the answer of the oracle at that reading. -/
def pollAt (w : World) (pid : Int) (k : Nat) : KillEvent :=
  KillEvent.poll pid (pollTime w k) (w.processAlive (pollTime w k))

/-- A process that is alive until the clock reads 400 ms, polled without
oversleep from clock reading 0. -/
def diesAt400 : World where
  start := 0
  processAlive := fun t => decide (t < 400 * Millisecond)
  oversleep := fun _ => 0

/-- A process that is dead from the start, polled without oversleep from clock
reading 0. -/
def deadAtStart : World where
  start := 0
  processAlive := fun _ => false
  oversleep := fun _ => 0

/-- A process that never dies, polled without oversleep from clock reading 0. -/
def immortal : World where
  start := 0
  processAlive := fun _ => true
  oversleep := fun _ => 0

/-! ## The tree-linking step -/

/-- What the scan of `/proc` finds for one process: pid, parent pid, command
name. -/
structure Record where
  PID : Int
  PPID : Int
  Comm : String
  deriving DecidableEq, Repr

/-- The map `nodes` as the scan leaves it, one fresh node
`&processNode{PID: pid, PPID: ppid, Comm: comm}` per record, stored under the key
`pid`.  The list order stands for the iteration order of the map. -/
def mkNodes (recs : List Record) : List processNode :=
  recs.map (fun r => ⟨r.PID, r.PPID, r.Comm, []⟩)

/-- The map lookup `nodes[key]`. -/
def lookupNode (nodes : List processNode) (key : Int) : Option processNode :=
  nodes.find? (fun n => decide (n.PID = key))

/-- The statement `parent.Children = append(parent.Children, node)` for the node
stored under `parent`. -/
def addChild (nodes : List processNode) (parent child : Int) : List processNode :=
  nodes.map (fun n =>
    if n.PID = parent then { n with Children := n.Children ++ [child] } else n)

/-- The loop `for pid, node := range nodes` of `buildTreeFromProc`, over the
entries still to be visited. -/
def linkLoop (nodes : List processNode) (roots : List Int) : List processNode → Forest
  | [] => ⟨nodes, roots⟩
  | node :: rest =>
    match lookupNode nodes node.PPID with
    | some parent => linkLoop (addChild nodes parent.PID node.PID) roots rest
    | none =>
      if node.PID ≠ 0 then linkLoop nodes (roots ++ [node.PID]) rest
      else linkLoop nodes roots rest

/-- The tree-linking step of `buildTreeFromProc`: `var roots []*processNode`, the
loop, `return roots`. -/
def linkNodes (nodes : List processNode) : Forest :=
  linkLoop nodes [] nodes

/-- The nodes that a walk from a node reaches, in the order in which `renderNode`
prints them: the node, then the walk of each child.  The walk stops at depth
`fuel`. -/
def Forest.walkNode (f : Forest) : Nat → Int → List Int
  | 0, _ => []
  | fuel + 1, p =>
    match lookupNode f.nodes p with
    | none => []
    | some n => n.PID :: n.Children.flatMap (Forest.walkNode f fuel)

/-- The nodes that `renderTree` prints: the walk of every root. -/
def Forest.walk (f : Forest) (fuel : Nat) : List Int :=
  f.roots.flatMap (Forest.walkNode f fuel)

/-- The pid reached from `p` by following the parent pid `k` times through the
records; `none` when a pid on the way is not the pid of a record. -/
def ancestorPid (recs : List Record) : Nat → Int → Option Int
  | 0, p => some p
  | k + 1, p =>
    match recs.find? (fun r => decide (r.PID = p)) with
    | none => none
    | some r => ancestorPid recs k r.PPID

/-- The records of the example of the specification. -/
def exampleRecords : List Record :=
  [⟨1, 0, "init"⟩, ⟨2, 1, "a"⟩, ⟨3, 1, "b"⟩, ⟨4, 2, "c"⟩]

/-- The pids of the records whose parent pid is `p`, in list order. -/
def kids (recs : List Record) (p : Int) : List Int :=
  (recs.filter (fun r => decide (r.PPID = p))).map (fun r => r.PID)

/-- The pids of the records with a non-zero pid whose parent pid is not the pid
of a record, in list order. -/
def rootPids (recs : List Record) : List Int :=
  (recs.filter (fun r =>
    decide (r.PPID ∉ recs.map (fun q => q.PID)) && decide (r.PID ≠ 0))).map (fun r => r.PID)

/-- The walk of `Forest.walkNode` on the linked forest of `recs`, written on the
records. -/
def walkPid (recs : List Record) : Nat → Int → List Int
  | 0, _ => []
  | fuel + 1, p =>
    if p ∈ recs.map (fun r => r.PID) then
      p :: (kids recs p).flatMap (walkPid recs fuel)
    else []

/-- The pids at depth `j` of the linked forest: the roots, their children, the
children of those, and so on. -/
def level (recs : List Record) : Nat → List Int
  | 0 => rootPids recs
  | j + 1 => (level recs j).flatMap (kids recs)

/-- The first `fuel` levels below `xs`, level by level. -/
def levelsFrom (recs : List Record) : Nat → List Int → List Int
  | 0, _ => []
  | fuel + 1, xs => xs ++ levelsFrom recs fuel (xs.flatMap (kids recs))

/-- The pid `x` lies at depth `j`: its `j`-th ancestor is the pid of a record with
a non-zero pid whose parent pid is not the pid of a record. -/
def rootAt (recs : List Record) (j : Nat) (x : Int) : Prop :=
  ∃ ρ r, ancestorPid recs j x = some ρ ∧
    recs.find? (fun r => decide (r.PID = ρ)) = some r ∧
    r.PPID ∉ recs.map (fun q => q.PID) ∧ r.PID ≠ 0

/-! # Theorems -/

/-! ## The bounded recent-process buffer -/

theorem InsertItem_at_end (l : ListModel) (e : processItem) :
    (l.InsertItem l.items.length e).items = l.items ++ [e] := by
  simp [ListModel.InsertItem]

theorem RemoveItem_items (l : ListModel) (i : Nat) :
    (l.RemoveItem i).items = l.items.eraseIdx i := by
  unfold ListModel.RemoveItem
  split
  · rfl
  · dsimp only
    split <;> rfl

theorem Update_tail_items (w : Widgets) (m : model) (cmds : List CmdAtom)
    (msg : Msg) (h : (∀ s, msg ≠ Msg.key s) ∧ msg ≠ Msg.other) :
    (Update.tail w m msg cmds).1.list = m.list := by
  unfold Update.tail
  dsimp only
  split
  · cases msg <;> simp_all [ListModel.Update]
  · rfl

theorem Update_newProcess_items (w : Widgets) (m : model) (e : processItem) :
    ∃ r, Update w m (newProcessMsg e) = some r ∧
      r.1.list.items = insertBounded m.list.items e := by
  refine ⟨_, rfl, ?_⟩
  rw [Update_tail_items w _ _ _ (by simp [newProcessMsg])]
  have heta : (⟨e.PID, e.Comm, e.Time⟩ : processItem) = e := rfl
  simp only [ListModel.Items, heta, insertBounded]
  split
  · rename_i h
    rw [InsertItem_at_end] at h
    rw [RemoveItem_items, InsertItem_at_end, if_pos h]
  · rename_i h
    rw [InsertItem_at_end] at h
    rw [InsertItem_at_end, if_neg h]

theorem runMsgs_newProcess_items (w : Widgets) (evs : List processItem) (m : model) :
    ∃ m', runMsgs w m (evs.map newProcessMsg) = some m' ∧
      m'.list.items = evs.foldl insertBounded m.list.items := by
  induction evs generalizing m with
  | nil => exact ⟨m, rfl, rfl⟩
  | cons e es ih =>
    obtain ⟨r, hr, hitems⟩ := Update_newProcess_items w m e
    obtain ⟨m', hm', hfold⟩ := ih r.1
    refine ⟨m', ?_, ?_⟩
    · simp only [List.map_cons, runMsgs, hr]
      exact hm'
    · rw [hfold, hitems]
      rfl

theorem foldl_insertBounded (evs xs : List processItem) (hxs : xs.length ≤ 500) :
    evs.foldl insertBounded xs = (xs ++ evs).drop ((xs ++ evs).length - 500) := by
  induction evs generalizing xs with
  | nil => simp [Nat.sub_eq_zero_of_le hxs]
  | cons e es ih =>
    rw [List.foldl_cons]
    by_cases hlt : xs.length < 500
    · have hpush : insertBounded xs e = xs ++ [e] := by
        unfold insertBounded
        rw [if_neg]
        simp only [List.length_append, List.length_singleton]
        omega
      rw [hpush, ih _ (by simp only [List.length_append, List.length_singleton]; omega)]
      simp
    · have hlen : xs.length = 500 := by omega
      cases xs with
      | nil => simp at hlen
      | cons x xt =>
        have hpush : insertBounded (x :: xt) e = xt ++ [e] := by
          unfold insertBounded
          rw [if_pos]
          · simp
          · simp only [List.length_append, List.length_singleton]
            omega
        have hxt : xt.length = 499 := by simpa using hlen
        rw [hpush, ih _ (by simp only [List.length_append, List.length_singleton]; omega)]
        have e1 : (xt ++ [e] ++ es).length - 500 = es.length := by
          simp only [List.length_append, List.length_singleton]; omega
        have e2 : (x :: xt ++ e :: es).length - 500 = es.length + 1 := by
          simp only [List.length_append, List.length_cons]; omega
        rw [e1, e2]
        simp

/-- C1: for every sequence of N `NewProcessEvent` messages applied by `Update` to
the initial model, no message panics, the recent-process buffer ends with length
min(N, 500), and its entries are exactly the last min(N, 500) events of the
sequence, in arrival order. -/
theorem recent_buffer_keeps_last_500 (w : Widgets) (evs : List processItem) :
    ∃ m, runMsgs w initialModel (evs.map newProcessMsg) = some m ∧
      m.list.Items.length = min evs.length 500 ∧
      m.list.Items = evs.drop (evs.length - min evs.length 500) := by
  obtain ⟨m, hm, hitems⟩ := runMsgs_newProcess_items w evs initialModel
  have hfold := foldl_insertBounded evs initialModel.list.items (by simp [initialModel])
  have hinit : initialModel.list.items = [] := rfl
  rw [hinit, List.nil_append] at hfold
  have hmin : evs.length - min evs.length 500 = evs.length - 500 := by omega
  refine ⟨m, hm, ?_, ?_⟩
  · simp only [ListModel.Items, hitems, hinit, hfold, List.length_drop]
    omega
  · simp only [ListModel.Items, hitems, hinit, hfold, hmin]

/-! ## The rate history -/

theorem runMsgs_append (w : Widgets) (a b : List Msg) (m : model) :
    runMsgs w m (a ++ b) = (runMsgs w m a).bind (fun m' => runMsgs w m' b) := by
  induction a generalizing m with
  | nil => rfl
  | cons x xs ih =>
    simp only [List.cons_append, runMsgs]
    cases Update w m x with
    | none => rfl
    | some r => exact ih r.1

theorem Update_tail_history (w : Widgets) (m : model) (msg : Msg) (cmds : List CmdAtom) :
    (Update.tail w m msg cmds).1.history = m.history ∧
      (Update.tail w m msg cmds).1.processCount = m.processCount := by
  unfold Update.tail
  dsimp only
  split <;> exact ⟨rfl, rfl⟩

theorem Update_event_history (w : Widgets) (m : model) (e : processItem) :
    ∃ r, Update w m (newProcessMsg e) = some r ∧ r.1.history = m.history ∧
      r.1.processCount = m.processCount + 1 := by
  refine ⟨_, rfl, ?_, ?_⟩
  · rw [(Update_tail_history w _ _ _).1]
  · rw [(Update_tail_history w _ _ _).2]

theorem Update_tick_history (w : Widgets) (m : model) (h : m.history.length = 80) :
    ∃ r, Update w m Msg.tick = some r ∧
      r.1.history = m.history.drop 1 ++ [m.processCount] ∧ r.1.processCount = 0 := by
  cases hh : m.history with
  | nil => simp [hh] at h
  | cons x rest =>
    refine ⟨Update.tail w
        { m with history := rest ++ [m.processCount], processCount := 0 } Msg.tick
        [CmdAtom.tick], ?_, ?_, ?_⟩
    · simp only [Update, hh]
    · rw [(Update_tail_history w _ _ _).1]
      rfl
    · rw [(Update_tail_history w _ _ _).2]

theorem runMsgs_feed_counter (w : Widgets) (feed : List Feed) :
    ∃ m, runMsgs w initialModel (feed.map Feed.toMsg) = some m ∧
      m.history.length = 80 ∧ m.processCount = (eventsSinceTick feed : Int) := by
  induction feed using List.reverseRecOn with
  | nil => exact ⟨initialModel, rfl, by simp [initialModel], by simp [eventsSinceTick, initialModel]⟩
  | append_singleton pre x ih =>
    obtain ⟨m, hm, hlen, hcount⟩ := ih
    rw [List.map_append, runMsgs_append, hm]
    cases x with
    | event e =>
      obtain ⟨r, hr, hhist, hcnt⟩ := Update_event_history w m e
      refine ⟨r.1, ?_, ?_, ?_⟩
      · simp [Feed.toMsg, runMsgs, hr]
      · rw [hhist, hlen]
      · rw [hcnt, hcount]
        simp [eventsSinceTick, Feed.isEvent, List.takeWhile_cons]
    | tick =>
      obtain ⟨r, hr, hhist, hcnt⟩ := Update_tick_history w m hlen
      refine ⟨r.1, ?_, ?_, ?_⟩
      · simp [Feed.toMsg, runMsgs, hr]
      · rw [hhist]
        simp only [List.length_append, List.length_drop, List.length_singleton, hlen]
      · rw [hcnt]
        simp [eventsSinceTick, Feed.isEvent, List.takeWhile_cons]

/-- C2: starting from the initial model, every sequence of `NewProcessEvent` and
`Tick` messages is handled without a panic and leaves a rate history of length
exactly 80; and a `Tick` handled after it gives a history, again of length 80,
whose last element is the number of `NewProcessEvent` messages handled since the
previous `Tick` (or since the start), whose first 79 elements are the last 79 of
the history before, and leaves the accumulating counter at 0. -/
theorem rate_history_rolls (w : Widgets) (feed : List Feed) :
    ∃ m, runMsgs w initialModel (feed.map Feed.toMsg) = some m ∧
      m.history.length = 80 ∧
      ∃ r, Update w m Msg.tick = some r ∧
        r.1.history.length = 80 ∧
        r.1.history.getLast? = some (eventsSinceTick feed : Int) ∧
        r.1.history.take 79 = m.history.drop 1 ∧
        r.1.processCount = 0 := by
  obtain ⟨m, hm, hlen, hcount⟩ := runMsgs_feed_counter w feed
  obtain ⟨r, hr, hhist, hcnt⟩ := Update_tick_history w m hlen
  refine ⟨m, hm, hlen, r, hr, ?_, ?_, ?_, hcnt⟩
  · rw [hhist]
    simp only [List.length_append, List.length_drop, List.length_singleton, hlen]
  · rw [hhist, hcount]
    simp
  · rw [hhist]
    have h79 : (m.history.drop 1).length = 79 := by
      simp only [List.length_drop, hlen]
    rw [List.take_append_of_le_length (by omega), List.take_of_length_le (by omega)]

/-! ## Key handling -/

theorem keysInSync_initialModel : keysInSync initialModel := by
  simp [keysInSync, initialModel, defaultKeys]

theorem keysInSync_setViewState (m : model) (s : viewState) (h : keysInSync m) :
    keysInSync (m.setViewState s) := by
  obtain ⟨h1, h2, h3, h4, h5, -, -, -⟩ := h
  cases s <;>
    simp [keysInSync, model.setViewState, Binding.SetEnabled, h1, h2, h3, h4, h5]

theorem keysInSync_of_eq (m m' : model) (h : keysInSync m)
    (hk : m'.keys = m.keys) (hs : m'.state = m.state) : keysInSync m' := by
  unfold keysInSync at *
  rw [hk, hs]
  exact h

theorem Update_tail_keys (w : Widgets) (m : model) (msg : Msg) (cmds : List CmdAtom) :
    (Update.tail w m msg cmds).1.keys = m.keys ∧
      (Update.tail w m msg cmds).1.state = m.state := by
  unfold Update.tail
  dsimp only
  split <;> exact ⟨rfl, rfl⟩

theorem keysInSync_tail (w : Widgets) (m : model) (msg : Msg) (cmds : List CmdAtom)
    (h : keysInSync m) : keysInSync (Update.tail w m msg cmds).1 :=
  keysInSync_of_eq m _ h (Update_tail_keys w m msg cmds).1 (Update_tail_keys w m msg cmds).2

theorem keysInSync_Update (w : Widgets) (m : model) (msg : Msg)
    (r : model × Cmd × List Effect) (h : keysInSync m) (hr : Update w m msg = some r) :
    keysInSync r.1 := by
  cases msg with
  | windowSize width height =>
    simp only [Update, Option.some.injEq] at hr
    subst hr
    exact keysInSync_of_eq m _ h rfl rfl
  | tree t =>
    simp only [Update, Option.some.injEq] at hr
    subst hr
    exact keysInSync_of_eq m _ h rfl rfl
  | newProcess pid comm time =>
    simp only [Update, Option.some.injEq] at hr
    subst hr
    exact keysInSync_of_eq m _ h (Update_tail_keys w _ _ _).1 (Update_tail_keys w _ _ _).2
  | tick =>
    unfold Update at hr
    dsimp only at hr
    split at hr
    · simp at hr
    · simp only [Option.some.injEq] at hr
      subst hr
      exact keysInSync_of_eq m _ h (Update_tail_keys w _ _ _).1 (Update_tail_keys w _ _ _).2
  | other =>
    simp only [Update, Option.some.injEq] at hr
    subst hr
    exact keysInSync_tail w m _ _ h
  | key s =>
    unfold Update at hr
    dsimp only at hr
    split at hr
    · simp only [Option.some.injEq] at hr
      subst hr
      unfold Update.confirming
      split
      · exact keysInSync_of_eq m _ h rfl rfl
      · split
        · exact keysInSync_of_eq m _ h rfl rfl
        · exact h
    · split at hr
      · simp only [Option.some.injEq] at hr
        subst hr
        exact keysInSync_of_eq m _ h rfl rfl
      · have hdt : keysInSync (Update.detailsOrTree w m s).1 := by
          unfold Update.detailsOrTree
          split
          · exact keysInSync_setViewState m _ h
          · split
            · exact keysInSync_setViewState m _ h
            · split
              · exact h
              · split
                · exact keysInSync_setViewState m _ h
                · exact keysInSync_tail w m _ _ h
        split at hr
        · simp only [Option.some.injEq] at hr
          subst hr
          exact hdt
        · simp only [Option.some.injEq] at hr
          subst hr
          exact hdt
        · simp only [Option.some.injEq] at hr
          subst hr
          unfold Update.inList
          split
          · split
            · exact h
            · split
              · exact keysInSync_tail w _ _ _ (keysInSync_setViewState m _ h)
              · split
                · split
                  · exact keysInSync_tail w _ _ _
                      (keysInSync_setViewState _ _ (keysInSync_of_eq m _ h rfl rfl))
                  · exact keysInSync_tail w m _ _ h
                · split
                  · split
                    · exact keysInSync_of_eq m _ h rfl rfl
                    · exact keysInSync_tail w m _ _ h
                  · exact keysInSync_tail w m _ _ h
          · exact keysInSync_tail w m _ _ h

theorem keysInSync_runMsgs (w : Widgets) (msgs : List Msg) (m m' : model)
    (h : keysInSync m) (hr : runMsgs w m msgs = some m') : keysInSync m' := by
  induction msgs generalizing m with
  | nil =>
    simp only [runMsgs, Option.some.injEq] at hr
    exact hr ▸ h
  | cons x xs ih =>
    simp only [runMsgs] at hr
    cases hu : Update w m x with
    | none => simp [hu] at hr
    | some r =>
      rw [hu] at hr
      exact ih r.1 (keysInSync_Update w m x r h hu) hr

theorem keysInSync_of_Reachable (w : Widgets) (m : model) (h : Reachable w m) :
    keysInSync m := by
  obtain ⟨msgs, hm⟩ := h
  exact keysInSync_runMsgs w msgs initialModel m keysInSync_initialModel hm

theorem detailsModel_reachable : Reachable idleWidgets detailsModel :=
  ⟨toDetails, by decide⟩

/-- C5: while the termination confirmation is active, every key other than `y`,
`Y`, `n`, `N` and `esc` (the quit keys `q` and `ctrl+c` among them) makes `Update`
return the model unchanged with no command and no effect; and the keys `n`, `N`
and `esc` return, with no command and no effect, the model in which only the
confirmation flag is cleared. -/
theorem confirmation_swallows_keys (w : Widgets) (m : model) (s : String)
    (hc : m.confirmingKill = true) :
    (s ∉ ["y", "Y", "n", "N", "esc"] →
      Update w m (Msg.key s) = some (m, Cmd.nil, [])) ∧
    (s ∈ ["n", "N", "esc"] →
      Update w m (Msg.key s) = some ({ m with confirmingKill := false }, Cmd.nil, [])) := by
  constructor
  · intro hs
    simp only [List.mem_cons, List.mem_singleton, List.not_mem_nil, or_false, not_or] at hs
    obtain ⟨h1, h2, h3, h4, h5⟩ := hs
    simp [Update, hc, Update.confirming, h1, h2, h3, h4, h5]
  · intro hs
    simp only [List.mem_cons, List.mem_singleton, List.not_mem_nil, or_false] at hs
    have hy : ¬ (s = "y" ∨ s = "Y") := by
      rcases hs with h | h | h <;> subst h <;> decide
    simp [Update, hc, Update.confirming, hy, hs]

theorem confirmation_swallows_keys_witness :
    confirmingModel.confirmingKill = true ∧
    (("q" ∉ ["y", "Y", "n", "N", "esc"] →
      Update idleWidgets confirmingModel (Msg.key "q") =
        some (confirmingModel, Cmd.nil, [])) ∧
    ("q" ∈ ["n", "N", "esc"] →
      Update idleWidgets confirmingModel (Msg.key "q") =
        some ({ confirmingModel with confirmingKill := false }, Cmd.nil, []))) :=
  ⟨rfl, confirmation_swallows_keys idleWidgets confirmingModel "q" rfl⟩

/-- C9, as stated, fails: the model reached from the initial model by one
`NewProcessEvent` and `enter` is in the details view with no confirmation active,
and the toggle-view key `t` leaves it in the details view. -/
theorem toggle_in_details_stays :
    runMsgs idleWidgets initialModel toDetails = some detailsModel ∧
    detailsModel.confirmingKill = false ∧
    detailsModel.state = viewState.detailsView ∧
    (Update idleWidgets detailsModel (Msg.key "t")).map (fun r => r.1.state) =
      some viewState.detailsView ∧
    (Update idleWidgets detailsModel (Msg.key "t")).map (fun r => r.1.state) ≠
      some viewState.listView := by
  decide

/-- C9, amended: for every model reachable from the initial model, with no
confirmation active and in the details or the tree view, a back key (`c` or
`esc`) sets the view state to the list view, the toggle-view key `t` sets it to
the list view when the view is the tree view and leaves the details view in
place, and a quit key (`q` or `ctrl+c`) returns the quit command. -/
theorem details_tree_keys (w : Widgets) (m : model) (hr : Reachable w m)
    (hc : m.confirmingKill = false)
    (hs : m.state = viewState.detailsView ∨ m.state = viewState.treeView) :
    (∀ s ∈ ["c", "esc"], ∃ r, Update w m (Msg.key s) = some r ∧
      r.1.state = viewState.listView) ∧
    (m.state = viewState.treeView → ∃ r, Update w m (Msg.key "t") = some r ∧
      r.1.state = viewState.listView) ∧
    (m.state = viewState.detailsView → ∃ r, Update w m (Msg.key "t") = some r ∧
      r.1.state = viewState.detailsView) ∧
    (∀ s ∈ ["q", "ctrl+c"], ∃ r, Update w m (Msg.key s) = some r ∧
      r.2.1 = Cmd.Quit) := by
  obtain ⟨hq, hhelp, hback, hbackc, htoggle, hen, htree, hdet⟩ :=
    keysInSync_of_Reachable w m hr
  have hne : m.state ≠ viewState.listView := by
    rcases hs with h | h <;> rw [h] <;> decide
  obtain ⟨hbe, hbce⟩ := hen hne
  have hU : ∀ s, Matches s m.keys.Help = false →
      Update w m (Msg.key s) = some (Update.detailsOrTree w m s) := by
    intro s hm
    rcases hs with h | h <;> simp [Update, hc, hm, h]
  have hH : ∀ s, s ≠ "?" → Matches s m.keys.Help = false := by
    intro s hne
    simp [Matches, hhelp, hne]
  refine ⟨?_, ?_, ?_, ?_⟩
  · intro s hmem
    simp only [List.mem_cons, List.mem_singleton, List.not_mem_nil, or_false] at hmem
    rcases hmem with h | h <;> subst h
    · refine ⟨_, hU "c" (hH "c" (by decide)), ?_⟩
      simp [Update.detailsOrTree, Matches, hbackc, hbce, model.setViewState]
    · refine ⟨_, hU "esc" (hH "esc" (by decide)), ?_⟩
      simp [Update.detailsOrTree, Matches, hbackc, hback, hbe, model.setViewState]
  · intro ht
    refine ⟨_, hU "t" (hH "t" (by decide)), ?_⟩
    simp [Update.detailsOrTree, Matches, hbackc, hback, hq, htoggle, htree ht, ht,
      model.setViewState]
  · intro hd
    refine ⟨_, hU "t" (hH "t" (by decide)), ?_⟩
    simp [Update.detailsOrTree, Matches, hbackc, hback, hq, htoggle, hdet hd, hd,
      (Update_tail_keys w m _ _).2]
  · intro s hmem
    simp only [List.mem_cons, List.mem_singleton, List.not_mem_nil, or_false] at hmem
    rcases hmem with h | h <;> subst h
    · refine ⟨_, hU "q" (hH "q" (by decide)), ?_⟩
      simp [Update.detailsOrTree, Matches, hbackc, hback, hq]
    · refine ⟨_, hU "ctrl+c" (hH "ctrl+c" (by decide)), ?_⟩
      simp [Update.detailsOrTree, Matches, hbackc, hback, hq]

theorem details_tree_keys_witness :
    Reachable idleWidgets detailsModel ∧
    detailsModel.confirmingKill = false ∧
    (detailsModel.state = viewState.detailsView ∨
      detailsModel.state = viewState.treeView) ∧
    ((∀ s ∈ ["c", "esc"], ∃ r, Update idleWidgets detailsModel (Msg.key s) = some r ∧
      r.1.state = viewState.listView) ∧
    (detailsModel.state = viewState.treeView →
      ∃ r, Update idleWidgets detailsModel (Msg.key "t") = some r ∧
        r.1.state = viewState.listView) ∧
    (detailsModel.state = viewState.detailsView →
      ∃ r, Update idleWidgets detailsModel (Msg.key "t") = some r ∧
        r.1.state = viewState.detailsView) ∧
    (∀ s ∈ ["q", "ctrl+c"], ∃ r, Update idleWidgets detailsModel (Msg.key s) = some r ∧
      r.2.1 = Cmd.Quit)) :=
  ⟨detailsModel_reachable, rfl, Or.inl rfl,
    details_tree_keys idleWidgets detailsModel detailsModel_reachable rfl (Or.inl rfl)⟩

/-! ## Confirmed termination at capacity -/

theorem Update_tail_model (w : Widgets) (m : model) (cmds : List CmdAtom)
    (msg : Msg) (h : (∀ s, msg ≠ Msg.key s) ∧ msg ≠ Msg.other) :
    (Update.tail w m msg cmds).1 = m := by
  unfold Update.tail
  dsimp only
  split
  · cases msg <;> first | rfl | (exfalso; simp at h)
  · rfl

theorem Update_newProcess_unfiltered (w : Widgets) (m : model) (e : processItem)
    (hf : m.list.filterState = FilterState.Unfiltered) :
    ∃ r, Update w m (newProcessMsg e) = some r ∧
      r.1 = { m with
        list := { m.list with items := insertBounded m.list.items e }
        processCount := m.processCount + 1 } := by
  refine ⟨_, rfl, ?_⟩
  rw [Update_tail_model w _ _ _ (by simp [newProcessMsg])]
  have heta : (⟨e.PID, e.Comm, e.Time⟩ : processItem) = e := rfl
  simp only [ListModel.Items, heta, insertBounded]
  congr 1
  split
  · rename_i h
    rw [InsertItem_at_end] at h
    rw [if_pos h]
    simp [ListModel.RemoveItem, ListModel.InsertItem, hf]
  · rename_i h
    rw [InsertItem_at_end] at h
    rw [if_neg h]
    simp [ListModel.InsertItem]

theorem runMsgs_arrivals (w : Widgets) (evs : List processItem) (m : model)
    (hf : m.list.filterState = FilterState.Unfiltered) :
    runMsgs w m (evs.map newProcessMsg) = some { m with
        list := { m.list with items := evs.foldl insertBounded m.list.items }
        processCount := m.processCount + evs.length } := by
  induction evs generalizing m with
  | nil => simp [runMsgs]
  | cons e es ih =>
    obtain ⟨r, hr, hm⟩ := Update_newProcess_unfiltered w m e hf
    simp only [List.map_cons, runMsgs, hr]
    rw [ih r.1 (by rw [hm]; exact hf), hm]
    simp only [List.foldl_cons, List.length_cons, Nat.cast_add, Nat.cast_one]
    congr 2
    ring

theorem fullBuffer_length : fullBuffer.length = 500 := by
  simp [fullBuffer]

theorem runMsgs_fullBuffer :
    runMsgs idleWidgets initialModel (fullBuffer.map newProcessMsg) = some atCapacity := by
  rw [runMsgs_arrivals idleWidgets fullBuffer initialModel rfl]
  have hfold := foldl_insertBounded fullBuffer initialModel.list.items (by simp [initialModel])
  have hinit : initialModel.list.items = [] := rfl
  rw [hinit, List.nil_append, fullBuffer_length] at hfold
  rw [hinit, hfold, fullBuffer_length]
  rfl

theorem atCapacity_kill :
    Update idleWidgets atCapacity (Msg.key "x") =
      some ({ atCapacity with
        confirmingKill := true, confirmPid := 1, confirmText := "Kill PID 1 (sh)?" },
        Cmd.nil, []) := by
  rfl

theorem fullBuffer_cons : fullBuffer = shItem 1 :: (List.range' 2 499).map shItem := rfl

theorem insertBounded_fullBuffer :
    insertBounded fullBuffer (shItem 501) = (List.range' 2 500).map shItem := by
  unfold insertBounded
  rw [if_pos (by rw [List.length_append, fullBuffer_length]; decide), fullBuffer_cons]
  have h : List.range' 2 500 = List.range' 2 499 ++ [501] := by
    rw [show (500 : Nat) = 499 + 1 from rfl, List.range'_concat]
  rw [h]
  simp

theorem confirmAtCapacity_arrival :
    runMsgs idleWidgets confirmAtCapacity [Msg.newProcess 501 "sh" 0] = some afterArrival := by
  have h := runMsgs_arrivals idleWidgets [shItem 501] confirmAtCapacity rfl
  rw [show [Msg.newProcess 501 "sh" 0] = [shItem 501].map newProcessMsg from rfl, h]
  simp only [List.foldl_cons, List.foldl_nil]
  rw [show confirmAtCapacity.list.items = fullBuffer from rfl, insertBounded_fullBuffer]
  rfl

theorem afterArrival_confirm :
    Update idleWidgets afterArrival (Msg.key "y") =
      some ({ afterArrival with
          list := { afterArrival.list with items := (List.range' 3 499).map shItem }
          confirmingKill := false },
        Cmd.nil, [Effect.goGracefulKill 1 (1500 * Millisecond)]) := by
  have hlen : afterArrival.list.Index < afterArrival.list.Items.length := by
    simp [afterArrival, ListModel.Items, ListModel.Index, confirmAtCapacity, atCapacity,
      initialModel]
  simp only [Update, Update.confirming, if_pos hlen]
  rfl

/-- C6 at a run the program can receive: 500 arrivals (pids 1 to 500), the kill
key `x`, one more arrival (pid 501), then `y`.  The confirmation is opened for the
highlighted entry, pid 1 at index 0; the arrival evicts index 0, so `Index()`
then points at pid 2; on `y` the termination is dispatched for pid 1 and the entry
taken out of the buffer is that of pid 2. -/
theorem kill_at_capacity_removes_neighbour :
    runMsgs idleWidgets initialModel (fullBuffer.map newProcessMsg ++ [Msg.key "x"])
      = some confirmAtCapacity ∧
    confirmAtCapacity.confirmingKill = true ∧
    confirmAtCapacity.confirmPid = 1 ∧
    confirmAtCapacity.list.SelectedItem = some (shItem 1) ∧
    runMsgs idleWidgets confirmAtCapacity [Msg.newProcess 501 "sh" 0] = some afterArrival ∧
    afterArrival.list.Items = (List.range' 2 500).map shItem ∧
    (Update idleWidgets afterArrival (Msg.key "y")).map (fun r => (r.1.list.Items, r.2.2))
      = some ((List.range' 3 499).map shItem,
          [Effect.goGracefulKill 1 (1500 * Millisecond)]) := by
  refine ⟨?_, rfl, rfl, rfl, confirmAtCapacity_arrival, rfl, ?_⟩
  · rw [runMsgs_append, runMsgs_fullBuffer]
    simp only [Option.bind, runMsgs, atCapacity_kill]
    rfl
  · rw [afterArrival_confirm]
    rfl

/-! ## The event decoder and the read loop -/

/-- C3 at a record of 24 bytes whose command field has no zero byte: the read of
the struct succeeds, `bytes.IndexByte` returns -1, and the slice expression
panics, where the wire format asks for the event with pid 7 and all sixteen
bytes as the command name. -/
theorem decode_unterminated_panics :
    unterminated.length = 24 ∧
    binaryRead unterminated = some ⟨7, List.replicate 16 97⟩ ∧
    IndexByte (List.replicate 16 97) 0 = -1 ∧
    decode unterminated 0 = DecodeResult.panicked ∧
    decodeSpec unterminated 0 =
      some (Msg.newProcess 7 (goString (List.replicate 16 97)) 0) := by
  decide

/-- C10 at the samples `unterminated`, `terminated`: both have 24 bytes, so both
events are to be forwarded; the loop panics on the first and forwards nothing. -/
theorem readLoop_stops_at_unterminated :
    readLoop [ReadResult.record unterminated 0, ReadResult.record terminated 1] =
      ([], LoopState.panicked) ∧
    decodeSpec unterminated 0 = some (Msg.newProcess 7 (goString (List.replicate 16 97)) 0) ∧
    decodeSpec terminated 1 = some (Msg.newProcess 9 "sh" 1) ∧
    readLoop [ReadResult.record terminated 1] = ([Msg.newProcess 9 "sh" 1], LoopState.reading) := by
  decide

/-! ## The termination controller -/

theorem gracefulKill_loop_spec (w : World) (pid deadline : Int) (fuel : Nat) :
    ∀ (now : Int) (k : Nat) (trace : List KillEvent),
      1 ≤ fuel → deadline - now ≤ 150000000 * ((fuel : Int) - 1) →
      ∃ early now' polls,
        gracefulKill.loop w pid deadline fuel now k trace = some (early, now', trace ++ polls) ∧
        (∀ e ∈ polls, ∃ t, t < deadline ∧ e = KillEvent.poll pid t (w.processAlive t)) ∧
        (early = true → ∃ t, t < deadline ∧ KillEvent.poll pid t false ∈ polls) ∧
        (early = false → deadline ≤ now' ∧ ∀ e ∈ polls, ∃ t, e = KillEvent.poll pid t true) := by
  induction fuel with
  | zero => intro now k trace h; omega
  | succ n ih =>
    intro now k trace _ hfuel
    unfold gracefulKill.loop
    by_cases hlt : now < deadline
    · rw [if_pos hlt]
      by_cases hal : w.processAlive now = true
      · have hn : (!w.processAlive now) = false := by simp [hal]
        rw [hn]
        simp only [Bool.false_eq_true, if_false]
        have hov : (0 : Int) ≤ (w.oversleep k : Int) := Int.natCast_nonneg _
        obtain ⟨early, now', polls, hloop, hall, hearly, hlate⟩ :=
          ih (now + 150 * Millisecond + w.oversleep k) (k + 1)
            (trace ++ [KillEvent.poll pid now true])
            (by push_cast at hfuel; omega)
            (by simp only [Millisecond]; push_cast at hfuel; omega)
        refine ⟨early, now', KillEvent.poll pid now true :: polls, ?_, ?_, ?_, ?_⟩
        · rw [hloop]
          simp
        · intro e he
          rcases List.mem_cons.mp he with h | h
          · exact ⟨now, hlt, by rw [h, hal]⟩
          · exact hall e h
        · intro h
          obtain ⟨t, ht, hmem⟩ := hearly h
          exact ⟨t, ht, List.mem_cons_of_mem _ hmem⟩
        · intro h
          refine ⟨(hlate h).1, ?_⟩
          intro e he
          rcases List.mem_cons.mp he with h' | h'
          · exact ⟨now, h'⟩
          · exact (hlate h).2 e h'
      · have hal' : w.processAlive now = false := by simpa using hal
        have hn : (!w.processAlive now) = true := by simp [hal']
        rw [hn]
        simp only [if_true]
        refine ⟨true, now, [KillEvent.poll pid now false], rfl, ?_, ?_, ?_⟩
        · intro e he
          rw [List.mem_singleton] at he
          exact ⟨now, hlt, by rw [he, hal']⟩
        · intro _
          exact ⟨now, hlt, List.mem_singleton.mpr rfl⟩
        · intro h
          simp at h
    · rw [if_neg hlt]
      refine ⟨false, now, [], by simp, ?_, ?_, ?_⟩
      · intro e he
        simp at he
      · intro h
        simp at h
      · intro _
        exact ⟨by omega, by intro e he; simp at he⟩

theorem countP_isSignal_polls (sig : Signal) (pid : Int) (polls : List KillEvent)
    (h : ∀ e ∈ polls, ∃ t b, e = KillEvent.poll pid t b) :
    polls.countP (KillEvent.isSignal sig) = 0 := by
  rw [List.countP_eq_zero]
  intro e he
  obtain ⟨t, b, rfl⟩ := h e he
  simp [KillEvent.isSignal]

theorem gracefulKill_signals (w : World) (pid timeout : Int) :
    ∃ trace, gracefulKill w pid timeout = some trace ∧
      trace.head? = some (KillEvent.signal Signal.SIGTERM pid w.start) ∧
      trace.countP (KillEvent.isSignal Signal.SIGTERM) = 1 ∧
      (∀ t b, KillEvent.poll pid t b ∈ trace → t < w.start + timeout ∧ b = w.processAlive t) ∧
      ((∃ t, t < w.start + timeout ∧ KillEvent.poll pid t false ∈ trace) →
        trace.countP (KillEvent.isSignal Signal.SIGKILL) = 0) ∧
      ((∀ t b, t < w.start + timeout → KillEvent.poll pid t b ∈ trace → b = true) →
        trace.countP (KillEvent.isSignal Signal.SIGKILL) = 1 ∧
        ∃ t, w.start + timeout ≤ t ∧
          trace.getLast? = some (KillEvent.signal Signal.SIGKILL pid t)) := by
  obtain ⟨early, now', polls, hloop, hall, hearly, hlate⟩ :=
    gracefulKill_loop_spec w pid (w.start + timeout) (timeout.toNat / 150000000 + 2)
      w.start 0 [KillEvent.signal Signal.SIGTERM pid w.start] (by omega)
      (by push_cast; omega)
  have hpolls : ∀ e ∈ polls, ∃ t b, e = KillEvent.poll pid t b := by
    intro e he
    obtain ⟨t, -, h⟩ := hall e he
    exact ⟨t, _, h⟩
  have hterm := countP_isSignal_polls Signal.SIGTERM pid polls hpolls
  have hkill := countP_isSignal_polls Signal.SIGKILL pid polls hpolls
  cases early with
  | true =>
    refine ⟨[KillEvent.signal Signal.SIGTERM pid w.start] ++ polls, ?_, rfl, ?_, ?_, ?_, ?_⟩
    · simp only [gracefulKill, hloop]
    · rw [List.countP_append, hterm]
      rfl
    · intro t b hmem
      rcases List.mem_append.mp hmem with h | h
      · simp at h
      · obtain ⟨t', ht', he⟩ := hall _ h
        injection he with _ h2 h3
        subst h2
        exact ⟨ht', h3⟩
    · intro _
      rw [List.countP_append, hkill]
      rfl
    · intro hallTrue
      obtain ⟨t, ht, hmem⟩ := hearly rfl
      have := hallTrue t false ht (List.mem_append_right _ hmem)
      simp at this
  | false =>
    obtain ⟨hdl, htrue⟩ := hlate rfl
    refine ⟨[KillEvent.signal Signal.SIGTERM pid w.start] ++ polls ++
      [KillEvent.signal Signal.SIGKILL pid now'], ?_, rfl, ?_, ?_, ?_, ?_⟩
    · simp only [gracefulKill, hloop]
    · rw [List.countP_append, List.countP_append, hterm]
      rfl
    · intro t b hmem
      rcases List.mem_append.mp hmem with h | h
      · rcases List.mem_append.mp h with h | h
        · simp at h
        · obtain ⟨t', ht', he⟩ := hall _ h
          injection he with _ h2 h3
          subst h2
          exact ⟨ht', h3⟩
      · simp at h
    · intro hex
      obtain ⟨t, _, hmem⟩ := hex
      exfalso
      rcases List.mem_append.mp hmem with h | h
      · rcases List.mem_append.mp h with h | h
        · simp at h
        · obtain ⟨t', he⟩ := htrue _ h
          simp at he
      · simp at h
    · intro _
      refine ⟨?_, now', hdl, List.getLast?_concat _⟩
      rw [List.countP_append, List.countP_append, hkill]
      rfl

theorem pollTime_succ (w : World) (k : Nat) :
    pollTime w (k + 1) = pollTime w k + 150000000 + (w.oversleep k : Int) := by
  simp [pollTime, Millisecond]

theorem gracefulKill_loop_polls (w : World) (pid deadline : Int) (fuel : Nat) :
    ∀ (k : Nat) (trace : List KillEvent),
      1 ≤ fuel → deadline - pollTime w k ≤ 150000000 * ((fuel : Int) - 1) →
      ∃ early now' m,
        gracefulKill.loop w pid deadline fuel (pollTime w k) k trace =
          some (early, now', trace ++ (List.range' k m).map (pollAt w pid)) ∧
        (∀ i, k ≤ i → i < k + m → pollTime w i < deadline) ∧
        (early = true → 0 < m ∧ w.processAlive (pollTime w (k + m - 1)) = false ∧
          ∀ i, k ≤ i → i + 1 < k + m → w.processAlive (pollTime w i) = true) ∧
        (early = false → now' = pollTime w (k + m) ∧ deadline ≤ pollTime w (k + m) ∧
          ∀ i, k ≤ i → i < k + m → w.processAlive (pollTime w i) = true) := by
  induction fuel with
  | zero => intro k trace h; omega
  | succ n ih =>
    intro k trace _ hfuel
    unfold gracefulKill.loop
    by_cases hlt : pollTime w k < deadline
    · rw [if_pos hlt]
      by_cases hal : w.processAlive (pollTime w k) = true
      · have hn : (!w.processAlive (pollTime w k)) = false := by simp [hal]
        rw [hn]
        simp only [Bool.false_eq_true, if_false]
        have hsucc := pollTime_succ w k
        have hov : (0 : Int) ≤ (w.oversleep k : Int) := Int.natCast_nonneg _
        obtain ⟨early, now', m, hloop, hbefore, hearly, hlate⟩ :=
          ih (k + 1) (trace ++ [KillEvent.poll pid (pollTime w k) true])
            (by push_cast at hfuel; omega)
            (by push_cast at hfuel; omega)
        refine ⟨early, now', m + 1, ?_, ?_, ?_, ?_⟩
        · have hnow : pollTime w k + 150 * Millisecond + (w.oversleep k : Int) =
              pollTime w (k + 1) := rfl
          rw [hnow, hloop, List.range'_succ, List.map_cons, List.append_assoc]
          simp only [pollAt, hal, List.singleton_append]
        · intro i hi1 hi2
          by_cases hik : i = k
          · rw [hik]; exact hlt
          · exact hbefore i (by omega) (by omega)
        · intro h
          obtain ⟨hm, hdead, halive⟩ := hearly h
          refine ⟨by omega, ?_, ?_⟩
          · rw [show k + (m + 1) - 1 = k + 1 + m - 1 by omega]
            exact hdead
          · intro i hi1 hi2
            by_cases hik : i = k
            · rw [hik]; exact hal
            · exact halive i (by omega) (by omega)
        · intro h
          obtain ⟨hnow', hdl, halive⟩ := hlate h
          rw [show k + 1 + m = k + (m + 1) by omega] at hnow' hdl
          refine ⟨hnow', hdl, ?_⟩
          intro i hi1 hi2
          by_cases hik : i = k
          · rw [hik]; exact hal
          · exact halive i (by omega) (by omega)
      · have hal' : w.processAlive (pollTime w k) = false := by simpa using hal
        have hn : (!w.processAlive (pollTime w k)) = true := by simp [hal']
        rw [hn]
        simp only [if_true]
        refine ⟨true, pollTime w k, 1, ?_, ?_, ?_, ?_⟩
        · simp only [List.range'_one, List.map_cons, List.map_nil, pollAt, hal']
        · intro i hi1 hi2
          rw [show i = k by omega]
          exact hlt
        · intro _
          refine ⟨Nat.one_pos, ?_, ?_⟩
          · rw [show k + 1 - 1 = k by omega]
            exact hal'
          · intro i hi1 hi2
            omega
        · intro h
          simp at h
    · rw [if_neg hlt]
      refine ⟨false, pollTime w k, 0, by simp, ?_, ?_, ?_⟩
      · intro i hi1 hi2
        omega
      · intro h
        simp at h
      · intro _
        exact ⟨rfl, by simpa using hlt, by intro i hi1 hi2; omega⟩

theorem gracefulKill_trace (w : World) (pid timeout : Int) :
    ∃ n,
      (∀ i, i < n → pollTime w i < w.start + timeout) ∧
      (∀ i, i + 1 < n → w.processAlive (pollTime w i) = true) ∧
      ((0 < n ∧ w.processAlive (pollTime w (n - 1)) = false ∧
          gracefulKill w pid timeout =
            some (KillEvent.signal Signal.SIGTERM pid w.start ::
              (List.range n).map (pollAt w pid))) ∨
        ((∀ i, i < n → w.processAlive (pollTime w i) = true) ∧
          w.start + timeout ≤ pollTime w n ∧
          gracefulKill w pid timeout =
            some (KillEvent.signal Signal.SIGTERM pid w.start ::
              ((List.range n).map (pollAt w pid) ++
                [KillEvent.signal Signal.SIGKILL pid (pollTime w n)])))) := by
  obtain ⟨early, now', m, hloop, hbefore, hearly, hlate⟩ :=
    gracefulKill_loop_polls w pid (w.start + timeout) (timeout.toNat / 150000000 + 2)
      0 [KillEvent.signal Signal.SIGTERM pid w.start] (by omega)
      (by simp only [pollTime]; push_cast; omega)
  have hstart : pollTime w 0 = w.start := rfl
  rw [hstart, ← List.range_eq_range'] at hloop
  refine ⟨m, fun i hi => hbefore i (Nat.zero_le i) (by omega), ?_, ?_⟩
  · intro i hi
    cases early with
    | true => exact (hearly rfl).2.2 i (Nat.zero_le i) (by omega)
    | false => exact (hlate rfl).2.2 i (Nat.zero_le i) (by omega)
  · cases early with
    | true =>
      left
      obtain ⟨hm, hdead, -⟩ := hearly rfl
      rw [Nat.zero_add] at hdead
      refine ⟨hm, hdead, ?_⟩
      simp only [gracefulKill, hloop]
      rfl
    | false =>
      right
      obtain ⟨hnow, hdl, halive⟩ := hlate rfl
      rw [Nat.zero_add] at hnow hdl
      refine ⟨fun i hi => halive i (Nat.zero_le i) (by omega), hdl, ?_⟩
      simp only [gracefulKill, hloop, hnow]
      rfl

/-- C4: over an explicit clock, a liveness oracle and the trace of what was done,
`gracefulKill` returns.  Its trace starts with SIGTERM, sent at the start, and
holds SIGTERM exactly once; every liveness poll in it is made before the deadline
and records the oracle's answer; if some poll made before the deadline answers
false, SIGKILL is not in the trace; if every poll made before the deadline
answers true, SIGKILL is in the trace exactly once, as its last event, at a
clock reading not earlier than the deadline.  The polls are made: the trace is
SIGTERM, then the polls of the turns 0 to n-1 of the loop (each at a clock
reading before the deadline, each but the last answered true), and either the
last poll is answered false and the trace ends there, or every poll is answered
true, the clock reading of turn n has reached the deadline, and the trace ends
with SIGKILL at that reading.  With a positive timeout the process is polled at
the start, and a process dead at the start gives the trace SIGTERM, poll. -/
theorem gracefulKill_escalates (w : World) (pid timeout : Int) :
    ∃ trace, gracefulKill w pid timeout = some trace ∧
      trace.head? = some (KillEvent.signal Signal.SIGTERM pid w.start) ∧
      trace.countP (KillEvent.isSignal Signal.SIGTERM) = 1 ∧
      (∀ t b, KillEvent.poll pid t b ∈ trace →
        t < w.start + timeout ∧ b = w.processAlive t) ∧
      ((∃ t, t < w.start + timeout ∧ KillEvent.poll pid t false ∈ trace) →
        trace.countP (KillEvent.isSignal Signal.SIGKILL) = 0) ∧
      ((∀ t b, t < w.start + timeout → KillEvent.poll pid t b ∈ trace → b = true) →
        trace.countP (KillEvent.isSignal Signal.SIGKILL) = 1 ∧
        ∃ t, w.start + timeout ≤ t ∧
          trace.getLast? = some (KillEvent.signal Signal.SIGKILL pid t)) ∧
      (∃ n,
        (∀ i, i < n → pollTime w i < w.start + timeout) ∧
        (∀ i, i + 1 < n → w.processAlive (pollTime w i) = true) ∧
        ((0 < n ∧ w.processAlive (pollTime w (n - 1)) = false ∧
            trace = KillEvent.signal Signal.SIGTERM pid w.start ::
              (List.range n).map (pollAt w pid)) ∨
          ((∀ i, i < n → w.processAlive (pollTime w i) = true) ∧
            w.start + timeout ≤ pollTime w n ∧
            trace = KillEvent.signal Signal.SIGTERM pid w.start ::
              ((List.range n).map (pollAt w pid) ++
                [KillEvent.signal Signal.SIGKILL pid (pollTime w n)])))) ∧
      (0 < timeout →
        KillEvent.poll pid w.start (w.processAlive w.start) ∈ trace) ∧
      (0 < timeout → w.processAlive w.start = false →
        trace = [KillEvent.signal Signal.SIGTERM pid w.start,
          KillEvent.poll pid w.start false]) := by
  obtain ⟨trace, htrace, h1, h2, h3, h4, h5⟩ := gracefulKill_signals w pid timeout
  obtain ⟨n, hbefore, hmid, hcases⟩ := gracefulKill_trace w pid timeout
  have hshape : (0 < n ∧ w.processAlive (pollTime w (n - 1)) = false ∧
        trace = KillEvent.signal Signal.SIGTERM pid w.start ::
          (List.range n).map (pollAt w pid)) ∨
      ((∀ i, i < n → w.processAlive (pollTime w i) = true) ∧
        w.start + timeout ≤ pollTime w n ∧
        trace = KillEvent.signal Signal.SIGTERM pid w.start ::
          ((List.range n).map (pollAt w pid) ++
            [KillEvent.signal Signal.SIGKILL pid (pollTime w n)])) := by
    rcases hcases with ⟨hn, hdead, heq⟩ | ⟨halive, hdl, heq⟩
    · left
      rw [htrace, Option.some.injEq] at heq
      exact ⟨hn, hdead, heq⟩
    · right
      rw [htrace, Option.some.injEq] at heq
      exact ⟨halive, hdl, heq⟩
  have hpos : 0 < timeout → 0 < n := by
    intro ht
    rcases hshape with ⟨hn, -, -⟩ | ⟨-, hdl, -⟩
    · exact hn
    · by_contra hzero
      have hn0 : n = 0 := by omega
      rw [hn0] at hdl
      simp only [pollTime] at hdl
      omega
  have hfirst : 0 < n → pollAt w pid 0 ∈ (List.range n).map (pollAt w pid) :=
    fun hn => List.mem_map.mpr ⟨0, List.mem_range.mpr hn, rfl⟩
  refine ⟨trace, htrace, h1, h2, h3, h4, h5, ⟨n, hbefore, hmid, hshape⟩, ?_, ?_⟩
  · intro ht
    have hmem := hfirst (hpos ht)
    rcases hshape with ⟨-, -, heq⟩ | ⟨-, -, heq⟩
    · rw [heq]
      exact List.mem_cons_of_mem _ hmem
    · rw [heq]
      exact List.mem_cons_of_mem _ (List.mem_append_left _ hmem)
  · intro ht hdead
    have hn := hpos ht
    have hdead0 : w.processAlive (pollTime w 0) = false := hdead
    rcases hshape with ⟨-, -, heq⟩ | ⟨halive, -, -⟩
    · have hn1 : n = 1 := by
        by_contra hne
        have := hmid 0 (by omega)
        rw [hdead0] at this
        exact Bool.false_ne_true this
      have hone : (List.range 1).map (pollAt w pid) = [pollAt w pid 0] := rfl
      rw [heq, hn1, hone]
      simp only [pollAt, hdead0]
      rfl
    · have := halive 0 hn
      rw [hdead0] at this
      exact absurd this Bool.false_ne_true

theorem gracefulKill_escalates_witness :
    ∃ trace, gracefulKill diesAt400 42 (1500 * Millisecond) = some trace ∧
      trace.head? = some (KillEvent.signal Signal.SIGTERM 42 diesAt400.start) ∧
      trace.countP (KillEvent.isSignal Signal.SIGTERM) = 1 ∧
      (∀ t b, KillEvent.poll 42 t b ∈ trace →
        t < diesAt400.start + 1500 * Millisecond ∧ b = diesAt400.processAlive t) ∧
      ((∃ t, t < diesAt400.start + 1500 * Millisecond ∧ KillEvent.poll 42 t false ∈ trace) →
        trace.countP (KillEvent.isSignal Signal.SIGKILL) = 0) ∧
      ((∀ t b, t < diesAt400.start + 1500 * Millisecond → KillEvent.poll 42 t b ∈ trace →
          b = true) →
        trace.countP (KillEvent.isSignal Signal.SIGKILL) = 1 ∧
        ∃ t, diesAt400.start + 1500 * Millisecond ≤ t ∧
          trace.getLast? = some (KillEvent.signal Signal.SIGKILL 42 t)) ∧
      (∃ n,
        (∀ i, i < n → pollTime diesAt400 i < diesAt400.start + 1500 * Millisecond) ∧
        (∀ i, i + 1 < n → diesAt400.processAlive (pollTime diesAt400 i) = true) ∧
        ((0 < n ∧ diesAt400.processAlive (pollTime diesAt400 (n - 1)) = false ∧
            trace = KillEvent.signal Signal.SIGTERM 42 diesAt400.start ::
              (List.range n).map (pollAt diesAt400 42)) ∨
          ((∀ i, i < n → diesAt400.processAlive (pollTime diesAt400 i) = true) ∧
            diesAt400.start + 1500 * Millisecond ≤ pollTime diesAt400 n ∧
            trace = KillEvent.signal Signal.SIGTERM 42 diesAt400.start ::
              ((List.range n).map (pollAt diesAt400 42) ++
                [KillEvent.signal Signal.SIGKILL 42 (pollTime diesAt400 n)])))) ∧
      (0 < 1500 * Millisecond →
        KillEvent.poll 42 diesAt400.start (diesAt400.processAlive diesAt400.start) ∈ trace) ∧
      (0 < 1500 * Millisecond → diesAt400.processAlive diesAt400.start = false →
        trace = [KillEvent.signal Signal.SIGTERM 42 diesAt400.start,
          KillEvent.poll 42 diesAt400.start false]) :=
  gracefulKill_escalates diesAt400 42 (1500 * Millisecond)

/-- The trace of `gracefulKill` for a process that dies 400 ms after the start. -/
theorem gracefulKill_diesAt400 :
    gracefulKill diesAt400 42 (1500 * Millisecond) =
      some [KillEvent.signal Signal.SIGTERM 42 0, KillEvent.poll 42 0 true,
        KillEvent.poll 42 150000000 true, KillEvent.poll 42 300000000 true,
        KillEvent.poll 42 450000000 false] := by
  decide

/-- The trace of `gracefulKill` for a process dead from the start: SIGTERM, one
poll answered false, and no SIGKILL. -/
theorem gracefulKill_deadAtStart :
    gracefulKill deadAtStart 42 (1500 * Millisecond) =
      some [KillEvent.signal Signal.SIGTERM 42 0, KillEvent.poll 42 0 false] := by
  decide

/-- The trace of `gracefulKill` for a process that never dies: SIGTERM, ten polls,
SIGKILL at the deadline. -/
theorem gracefulKill_immortal :
    (gracefulKill immortal 42 (1500 * Millisecond)).map (fun t => (t.length, t.getLast?)) =
      some (12, some (KillEvent.signal Signal.SIGKILL 42 1500000000)) := by
  decide

/-! ## The tree-linking step -/

/-- The example of the specification: one root, pid 1, with the children 2 and 3,
and pid 2 with the child 4; the walk from the roots lists 1, 2, 4, 3. -/
theorem linkNodes_exampleRecords :
    linkNodes (mkNodes exampleRecords) =
      ⟨[⟨1, 0, "init", [2, 3]⟩, ⟨2, 1, "a", [4]⟩, ⟨3, 1, "b", []⟩, ⟨4, 2, "c", []⟩], [1]⟩ ∧
    (linkNodes (mkNodes exampleRecords)).walk 4 = [1, 2, 4, 3] ∧
    linkNodes (mkNodes exampleRecords.reverse) =
      ⟨[⟨4, 2, "c", []⟩, ⟨3, 1, "b", []⟩, ⟨2, 1, "a", [4]⟩, ⟨1, 0, "init", [3, 2]⟩], [1]⟩ := by
  decide

/-- C8, as stated, fails: the one record (5, 5, sh) has a non-zero pid and its
parent pid is its own pid; the linking step makes it its own child and returns
no root. -/
theorem self_parent_is_no_root :
    linkNodes (mkNodes [⟨5, 5, "sh"⟩]) = ⟨[⟨5, 5, "sh", [5]⟩], []⟩ ∧
    (5 : Int) ∉ (linkNodes (mkNodes [⟨5, 5, "sh"⟩])).roots := by
  decide

theorem addChild_pids (nodes : List processNode) (p c : Int) :
    (addChild nodes p c).map (fun n => n.PID) = nodes.map (fun n => n.PID) := by
  unfold addChild
  rw [List.map_map]
  apply List.map_congr_left
  intro n _
  simp only [Function.comp]
  split <;> rfl

theorem lookupNode_none (nodes : List processNode) (key : Int)
    (h : lookupNode nodes key = none) : key ∉ nodes.map (fun n => n.PID) := by
  unfold lookupNode at h
  rw [List.find?_eq_none] at h
  intro hmem
  obtain ⟨n, hn, rfl⟩ := List.mem_map.mp hmem
  exact h n hn (by simp)

theorem lookupNode_some (nodes : List processNode) (key : Int) (n : processNode)
    (h : lookupNode nodes key = some n) : n.PID = key ∧ n ∈ nodes := by
  unfold lookupNode at h
  exact ⟨by simpa using List.find?_some h, List.mem_of_find?_eq_some h⟩

theorem linkLoop_eq (rest : List processNode) :
    ∀ (nodes : List processNode) (roots : List Int),
      linkLoop nodes roots rest =
        ⟨nodes.map (fun n => { n with Children := n.Children ++
            (rest.filter (fun c => decide (c.PPID = n.PID))).map (fun c => c.PID) }),
          roots ++ (rest.filter (fun c =>
            decide (c.PPID ∉ nodes.map (fun n => n.PID)) && decide (c.PID ≠ 0))).map
              (fun c => c.PID)⟩ := by
  induction rest with
  | nil =>
    intro nodes roots
    simp [linkLoop]
  | cons c rest ih =>
    intro nodes roots
    unfold linkLoop
    cases h : lookupNode nodes c.PPID with
    | none =>
      have hnot := lookupNode_none nodes c.PPID h
      have hkids : ∀ n ∈ nodes, ¬ c.PPID = n.PID := by
        intro n hn heq
        exact hnot (List.mem_map.mpr ⟨n, hn, heq.symm⟩)
      have hall : ∀ x ∈ nodes, ¬ x.PID = c.PPID := fun x hx h => hkids x hx h.symm
      dsimp only
      by_cases hz : c.PID ≠ 0
      · rw [if_pos hz, ih]
        congr 1
        · apply List.map_congr_left
          intro n hn
          simp [List.filter_cons, hkids n hn]
        · have hp : (decide (c.PPID ∉ nodes.map (fun n => n.PID)) && decide (c.PID ≠ 0)) = true := by
            rw [Bool.and_eq_true]
            exact ⟨decide_eq_true hnot, decide_eq_true hz⟩
          rw [List.filter_cons, if_pos hp, List.map_cons, List.append_assoc]
          rfl
      · rw [if_neg hz, ih]
        congr 1
        · apply List.map_congr_left
          intro n hn
          simp [List.filter_cons, hkids n hn]
        · simp [List.filter_cons, hz]
    | some parent =>
      obtain ⟨hpid, hmem⟩ := lookupNode_some nodes c.PPID parent h
      have hin : ¬ ∀ x ∈ nodes, ¬ x.PID = c.PPID := fun h => h parent hmem hpid
      dsimp only
      rw [ih, addChild_pids, hpid]
      congr 1
      · unfold addChild
        rw [List.map_map]
        apply List.map_congr_left
        intro n _
        by_cases hn : n.PID = c.PPID
        · simp [List.filter_cons, hn]
        · have hn' : ¬ c.PPID = n.PID := fun h => hn h.symm
          simp [List.filter_cons, hn, hn']
      · simp [List.filter_cons, hin]

theorem linkNodes_mkNodes (recs : List Record) :
    linkNodes (mkNodes recs) =
      ⟨recs.map (fun r => ⟨r.PID, r.PPID, r.Comm, kids recs r.PID⟩), rootPids recs⟩ := by
  unfold linkNodes
  rw [linkLoop_eq]
  simp only [mkNodes, List.map_map, List.nil_append, kids, rootPids, List.filter_map]
  congr 1

theorem lookupNode_linked (recs : List Record) (p : Int) :
    lookupNode (recs.map (fun r => (⟨r.PID, r.PPID, r.Comm, kids recs r.PID⟩ : processNode))) p =
      (recs.find? (fun r => decide (r.PID = p))).map
        (fun r => (⟨r.PID, r.PPID, r.Comm, kids recs r.PID⟩ : processNode)) := by
  unfold lookupNode
  rw [List.find?_map]
  rfl

theorem find?_pid_none (recs : List Record) (p : Int) :
    recs.find? (fun r => decide (r.PID = p)) = none ↔ p ∉ recs.map (fun r => r.PID) := by
  rw [List.find?_eq_none]
  constructor
  · intro h hmem
    obtain ⟨r, hr, rfl⟩ := List.mem_map.mp hmem
    exact h r hr (by simp)
  · intro h r hr hp
    exact h (List.mem_map.mpr ⟨r, hr, by simpa using hp⟩)

theorem find?_pid_some (recs : List Record) (p : Int) (r : Record)
    (h : recs.find? (fun r => decide (r.PID = p)) = some r) : r.PID = p ∧ r ∈ recs :=
  ⟨by simpa using List.find?_some h, List.mem_of_find?_eq_some h⟩

theorem find?_pid_of_mem (recs : List Record) (p : Int)
    (h : p ∈ recs.map (fun r => r.PID)) :
    ∃ r, recs.find? (fun r => decide (r.PID = p)) = some r ∧ r.PID = p ∧ r ∈ recs := by
  cases hf : recs.find? (fun r => decide (r.PID = p)) with
  | none => exact absurd h ((find?_pid_none recs p).mp hf)
  | some r => exact ⟨r, rfl, find?_pid_some recs p r hf⟩

theorem walkNode_linked (recs : List Record) (fuel : Nat) :
    ∀ p, (linkNodes (mkNodes recs)).walkNode fuel p = walkPid recs fuel p := by
  rw [linkNodes_mkNodes]
  induction fuel with
  | zero => intro p; rfl
  | succ n ih =>
    intro p
    unfold Forest.walkNode walkPid
    dsimp only
    rw [lookupNode_linked]
    cases hf : recs.find? (fun r => decide (r.PID = p)) with
    | none =>
      rw [if_neg ((find?_pid_none recs p).mp hf)]
      rfl
    | some r =>
      obtain ⟨hp, hr⟩ := find?_pid_some recs p r hf
      rw [if_pos (List.mem_map.mpr ⟨r, hr, hp⟩)]
      simp only [Option.map_some']
      rw [hp]
      congr 1
      exact List.flatMap_congr (fun c _ => ih c) |>.trans rfl

theorem flatMap_cons_perm (g : Int → List Int) (xs : List Int) :
    (xs.flatMap (fun p => p :: g p)).Perm (xs ++ xs.flatMap g) := by
  induction xs with
  | nil => simp
  | cons x xs ih =>
    simp only [List.flatMap_cons, List.cons_append]
    refine List.Perm.cons x ?_
    refine (List.Perm.append_left (g x) ih).trans ?_
    rw [← List.append_assoc, ← List.append_assoc]
    exact List.Perm.append_right _ List.perm_append_comm

theorem kids_subset (recs : List Record) (p c : Int) (h : c ∈ kids recs p) :
    c ∈ recs.map (fun r => r.PID) := by
  unfold kids at h
  obtain ⟨r, hr, rfl⟩ := List.mem_map.mp h
  exact List.mem_map.mpr ⟨r, (List.mem_filter.mp hr).1, rfl⟩

theorem walk_perm_levels (recs : List Record) (fuel : Nat) :
    ∀ xs : List Int, (∀ x ∈ xs, x ∈ recs.map (fun r => r.PID)) →
      (xs.flatMap (walkPid recs fuel)).Perm (levelsFrom recs fuel xs) := by
  induction fuel with
  | zero =>
    intro xs _
    simp [walkPid, levelsFrom]
  | succ n ih =>
    intro xs hxs
    have hstep : xs.flatMap (walkPid recs (n + 1)) =
        xs.flatMap (fun p => p :: (kids recs p).flatMap (walkPid recs n)) := by
      apply List.flatMap_congr
      intro p hp
      simp only [walkPid, if_pos (hxs p hp)]
    rw [hstep]
    refine (flatMap_cons_perm _ xs).trans ?_
    simp only [levelsFrom]
    refine List.Perm.append_left xs ?_
    rw [← List.flatMap_assoc]
    apply ih
    intro c hc
    obtain ⟨p, _, hcp⟩ := List.mem_flatMap.mp hc
    exact kids_subset recs p c hcp

theorem countP_pid (recs : List Record) (hnd : (recs.map (fun r => r.PID)).Nodup)
    (x : Int) (q : Record → Bool) :
    recs.countP (fun r => decide (r.PID = x) && q r) =
      match recs.find? (fun r => decide (r.PID = x)) with
      | some r => if q r = true then 1 else 0
      | none => 0 := by
  induction recs with
  | nil => rfl
  | cons r rs ih =>
    rw [List.map_cons, List.nodup_cons] at hnd
    by_cases hx : r.PID = x
    · have hrest : rs.countP (fun r => decide (r.PID = x) && q r) = 0 := by
        rw [List.countP_eq_zero]
        intro r' hr' hq
        simp only [Bool.and_eq_true, decide_eq_true_eq] at hq
        exact hnd.1 (List.mem_map.mpr ⟨r', hr', hq.1.trans hx.symm⟩)
      rw [List.countP_cons, hrest, List.find?_cons_of_pos _ (by simpa using hx)]
      simp [hx]
    · rw [List.countP_cons, List.find?_cons_of_neg _ (by simpa using hx), ih hnd.2]
      simp [hx]

theorem count_kids (recs : List Record) (hnd : (recs.map (fun r => r.PID)).Nodup)
    (x p : Int) :
    (kids recs p).count x =
      match recs.find? (fun r => decide (r.PID = x)) with
      | some r => if r.PPID = p then 1 else 0
      | none => 0 := by
  have h := countP_pid recs hnd x (fun r => decide (r.PPID = p))
  simp only [decide_eq_true_eq] at h
  rw [← h]
  unfold kids
  rw [List.count_eq_countP, List.countP_map, List.countP_filter]
  apply List.countP_congr
  intro r _
  simp only [Function.comp, beq_iff_eq, Bool.and_eq_true, decide_eq_true_eq]

theorem count_flatMap_kids (recs : List Record) (hnd : (recs.map (fun r => r.PID)).Nodup)
    (x : Int) (xs : List Int) :
    (xs.flatMap (kids recs)).count x =
      match recs.find? (fun r => decide (r.PID = x)) with
      | some r => xs.count r.PPID
      | none => 0 := by
  induction xs with
  | nil =>
    cases recs.find? (fun r => decide (r.PID = x)) <;> simp
  | cons p ps ih =>
    rw [List.flatMap_cons, List.count_append, ih, count_kids recs hnd]
    cases recs.find? (fun r => decide (r.PID = x)) with
    | none => rfl
    | some r =>
      dsimp only
      rw [List.count_cons]
      by_cases h : r.PPID = p
      · simp [h]; omega
      · have h' : ¬ p = r.PPID := fun e => h e.symm
        simp [h, h']

theorem count_rootPids (recs : List Record) (hnd : (recs.map (fun r => r.PID)).Nodup)
    (ρ : Int) :
    (rootPids recs).count ρ =
      match recs.find? (fun r => decide (r.PID = ρ)) with
      | some r => if r.PPID ∉ recs.map (fun q => q.PID) ∧ r.PID ≠ 0 then 1 else 0
      | none => 0 := by
  have h := countP_pid recs hnd ρ
    (fun r => decide (r.PPID ∉ recs.map (fun q => q.PID)) && decide (r.PID ≠ 0))
  simp only [Bool.and_eq_true, decide_eq_true_eq] at h
  rw [← h]
  unfold rootPids
  rw [List.count_eq_countP, List.countP_map, List.countP_filter]
  apply List.countP_congr
  intro r _
  simp only [Function.comp, beq_iff_eq, Bool.and_eq_true, decide_eq_true_eq]

theorem count_level (recs : List Record) (hnd : (recs.map (fun r => r.PID)).Nodup) :
    ∀ (j : Nat) (x : Int), (level recs j).count x =
      match ancestorPid recs j x with
      | some ρ => (rootPids recs).count ρ
      | none => 0 := by
  intro j
  induction j with
  | zero => intro x; rfl
  | succ j ih =>
    intro x
    simp only [level, ancestorPid]
    rw [count_flatMap_kids recs hnd]
    cases recs.find? (fun r => decide (r.PID = x)) with
    | none => rfl
    | some r => exact ih r.PPID

theorem count_level_cases (recs : List Record) (hnd : (recs.map (fun r => r.PID)).Nodup)
    (j : Nat) (x : Int) :
    ((level recs j).count x = 1 ∧ rootAt recs j x) ∨
      ((level recs j).count x = 0 ∧ ¬ rootAt recs j x) := by
  rw [count_level recs hnd]
  unfold rootAt
  cases ha : ancestorPid recs j x with
  | none => right; exact ⟨rfl, by rintro ⟨ρ, r, h, -⟩; simp at h⟩
  | some ρ =>
    dsimp only
    rw [count_rootPids recs hnd]
    cases hf : recs.find? (fun r => decide (r.PID = ρ)) with
    | none =>
      right
      refine ⟨rfl, ?_⟩
      rintro ⟨ρ', r, h, hf', -⟩
      simp only [Option.some.injEq] at h
      subst h
      rw [hf] at hf'
      simp at hf'
    | some r =>
      dsimp only
      by_cases hroot : r.PPID ∉ recs.map (fun q => q.PID) ∧ r.PID ≠ 0
      · left
        exact ⟨if_pos hroot, ρ, r, rfl, hf, hroot.1, hroot.2⟩
      · right
        refine ⟨if_neg hroot, ?_⟩
        rintro ⟨ρ', r', h, hf', h1, h2⟩
        simp only [Option.some.injEq] at h
        subst h
        rw [hf] at hf'
        simp only [Option.some.injEq] at hf'
        subst hf'
        exact hroot ⟨h1, h2⟩

theorem ancestorPid_add (recs : List Record) (j : Nat) :
    ∀ (k : Nat) (x : Int),
      ancestorPid recs (j + k) x = (ancestorPid recs k x).bind (ancestorPid recs j) := by
  intro k
  induction k with
  | zero => intro x; rfl
  | succ k ih =>
    intro x
    rw [← Nat.add_assoc]
    simp only [ancestorPid]
    cases recs.find? (fun r => decide (r.PID = x)) with
    | none => rfl
    | some r => exact ih r.PPID

theorem rootAt_later (recs : List Record) (k m : Nat) (x : Int)
    (h : rootAt recs k x) : ¬ rootAt recs (k + m + 1) x := by
  obtain ⟨ρ, r, ha, hf, hnot, -⟩ := h
  rintro ⟨ρ', r', ha', hf', -, -⟩
  have hsplit : k + m + 1 = (m + 1) + k := by omega
  rw [hsplit, ancestorPid_add, ha] at ha'
  simp only [Option.bind, ancestorPid, hf] at ha'
  cases m with
  | zero =>
    simp only [ancestorPid, Option.some.injEq] at ha'
    subst ha'
    exact hnot (List.mem_map.mpr
      ⟨r', (find?_pid_some recs _ r' hf').2, (find?_pid_some recs _ r' hf').1⟩)
  | succ m =>
    simp only [ancestorPid, (find?_pid_none recs r.PPID).mpr hnot] at ha'
    simp at ha'

theorem rootAt_unique (recs : List Record) (k k' : Nat) (x : Int)
    (h : rootAt recs k x) (h' : rootAt recs k' x) : k = k' := by
  rcases Nat.lt_trichotomy k k' with hlt | heq | hgt
  · exfalso
    obtain ⟨m, hm⟩ : ∃ m, k' = k + m + 1 := ⟨k' - k - 1, by omega⟩
    exact rootAt_later recs k m x h (hm ▸ h')
  · exact heq
  · exfalso
    obtain ⟨m, hm⟩ : ∃ m, k = k' + m + 1 := ⟨k - k' - 1, by omega⟩
    exact rootAt_later recs k' m x h' (hm ▸ h)

theorem ancestorPid_one (recs : List Record) (c : Int) (r : Record)
    (hf : recs.find? (fun r => decide (r.PID = c)) = some r) :
    ancestorPid recs 1 c = some r.PPID := by
  simp only [ancestorPid, hf]

theorem chain_stays (recs : List Record) (hnz : ∀ r ∈ recs, r.PID ≠ 0) (x : Int)
    (hx : x ∈ recs.map (fun r => r.PID))
    (hno : ∀ k, k < recs.length → ¬ rootAt recs k x) :
    ∀ k, k ≤ recs.length →
      ∃ c, c ∈ recs.map (fun r => r.PID) ∧ ancestorPid recs k x = some c := by
  intro k
  induction k with
  | zero => intro _; exact ⟨x, hx, rfl⟩
  | succ k ih =>
    intro hk
    obtain ⟨c, hc, ha⟩ := ih (by omega)
    obtain ⟨r, hf, hpid, hr⟩ := find?_pid_of_mem recs c hc
    have hnext : ancestorPid recs (k + 1) x = some r.PPID := by
      rw [Nat.add_comm k 1, ancestorPid_add, ha]
      exact ancestorPid_one recs c r hf
    refine ⟨r.PPID, ?_, hnext⟩
    by_contra hout
    exact hno k (by omega) ⟨c, r, ha, hf, hout, hnz r hr⟩

theorem rootAt_exists (recs : List Record) (hnz : ∀ r ∈ recs, r.PID ≠ 0)
    (hacyc : ∀ r ∈ recs, ∀ k, 0 < k → ancestorPid recs k r.PID ≠ some r.PID)
    (x : Int) (hx : x ∈ recs.map (fun r => r.PID)) :
    ∃ k, k < recs.length ∧ rootAt recs k x := by
  by_contra hno
  have hno' : ∀ k, k < recs.length → ¬ rootAt recs k x := fun k hk h => hno ⟨k, hk, h⟩
  have hchain := chain_stays recs hnz x hx hno'
  have hcard : (recs.map (fun r => r.PID)).toFinset.card <
      (Finset.range (recs.length + 1)).card := by
    rw [Finset.card_range]
    have := List.toFinset_card_le (recs.map (fun r => r.PID))
    rw [List.length_map] at this
    omega
  obtain ⟨i, hi, j, hj, hij, hsame⟩ :=
    Finset.exists_ne_map_eq_of_card_lt_of_maps_to hcard
      (f := fun k => (ancestorPid recs k x).getD 0)
      (by
        intro k hk
        rw [Finset.mem_range] at hk
        obtain ⟨c, hc, ha⟩ := hchain k (by omega)
        simp only [ha, Option.getD_some]
        exact List.mem_toFinset.mpr hc)
  rw [Finset.mem_range] at hi hj
  have key : ∀ a b, a < b → b ≤ recs.length →
      (ancestorPid recs a x).getD 0 = (ancestorPid recs b x).getD 0 → False := by
    intro a b hab hb hsame
    obtain ⟨c, hc, ha⟩ := hchain a (by omega)
    obtain ⟨c', _, hb'⟩ := hchain b hb
    rw [ha, hb'] at hsame
    simp only [Option.getD_some] at hsame
    subst hsame
    obtain ⟨r, -, hpid, hr⟩ := find?_pid_of_mem recs c hc
    have hsplit : b = (b - a) + a := by omega
    rw [hsplit, ancestorPid_add, ha] at hb'
    simp only [Option.bind] at hb'
    rw [← hpid] at hb'
    exact hacyc r hr (b - a) (by omega) hb'
  rcases Nat.lt_or_gt_of_ne hij with h | h
  · exact key i j h (by omega) hsame
  · exact key j i h (by omega) hsame.symm

theorem count_levelsFrom_zero (recs : List Record) (x : Int)
    (h : ∀ j, (level recs j).count x = 0) :
    ∀ fuel j, (levelsFrom recs fuel (level recs j)).count x = 0 := by
  intro fuel
  induction fuel with
  | zero => intro j; rfl
  | succ n ih =>
    intro j
    simp only [levelsFrom, List.count_append, h j, Nat.zero_add]
    exact ih (j + 1)

theorem count_levelsFrom_one (recs : List Record) (x : Int) (k : Nat)
    (hk : (level recs k).count x = 1) (h : ∀ j, j ≠ k → (level recs j).count x = 0) :
    ∀ fuel j, (levelsFrom recs fuel (level recs j)).count x =
      if j ≤ k ∧ k < j + fuel then 1 else 0 := by
  intro fuel
  induction fuel with
  | zero =>
    intro j
    rw [if_neg (by omega)]
    rfl
  | succ n ih =>
    intro j
    simp only [levelsFrom, List.count_append]
    have hstep := ih (j + 1)
    simp only [level] at hstep
    rw [hstep]
    by_cases hj : j = k
    · subst hj
      rw [hk, if_neg (by omega), if_pos (by omega)]
    · rw [h j hj]
      by_cases hin : j + 1 ≤ k ∧ k < j + 1 + n
      · rw [if_pos hin, if_pos (by omega)]
      · rw [if_neg hin, if_neg (by omega)]

theorem walk_linked_perm (recs : List Record)
    (hnd : (recs.map (fun r => r.PID)).Nodup) (hnz : ∀ r ∈ recs, r.PID ≠ 0)
    (hacyc : ∀ r ∈ recs, ∀ k, 0 < k → ancestorPid recs k r.PID ≠ some r.PID)
    (fuel : Nat) (hfuel : recs.length ≤ fuel) :
    ((linkNodes (mkNodes recs)).walk fuel).Perm (recs.map (fun r => r.PID)) := by
  have hwalk : (linkNodes (mkNodes recs)).walk fuel =
      (rootPids recs).flatMap (walkPid recs fuel) := by
    unfold Forest.walk
    rw [List.flatMap_congr (fun p _ => walkNode_linked recs fuel p), linkNodes_mkNodes]
  have hroots : ∀ x ∈ rootPids recs, x ∈ recs.map (fun r => r.PID) := by
    intro x hxr
    unfold rootPids at hxr
    obtain ⟨r, hr, rfl⟩ := List.mem_map.mp hxr
    exact List.mem_map.mpr ⟨r, (List.mem_filter.mp hr).1, rfl⟩
  rw [hwalk]
  refine (walk_perm_levels recs fuel (rootPids recs) hroots).trans ?_
  rw [List.perm_iff_count]
  intro x
  by_cases hx : x ∈ recs.map (fun r => r.PID)
  · obtain ⟨k, hk, hroot⟩ := rootAt_exists recs hnz hacyc x hx
    have hone : (level recs k).count x = 1 := by
      rcases count_level_cases recs hnd k x with h | h
      · exact h.1
      · exact absurd hroot h.2
    have hzero : ∀ j, j ≠ k → (level recs j).count x = 0 := by
      intro j hj
      rcases count_level_cases recs hnd j x with h | h
      · exact absurd (rootAt_unique recs j k x h.2 hroot) hj
      · exact h.1
    have h := count_levelsFrom_one recs x k hone hzero fuel 0
    rw [if_pos (by omega)] at h
    rw [show rootPids recs = level recs 0 from rfl, h, List.count_eq_one_of_mem hnd hx]
  · have hzero : ∀ j, (level recs j).count x = 0 := by
      intro j
      rcases count_level_cases recs hnd j x with h | h
      · exfalso
        obtain ⟨ρ, r, ha, hf, -, -⟩ := h.2
        cases j with
        | zero =>
          simp only [ancestorPid, Option.some.injEq] at ha
          subst ha
          exact hx (List.mem_map.mpr
            ⟨r, (find?_pid_some recs _ r hf).2, (find?_pid_some recs _ r hf).1⟩)
        | succ j =>
          simp only [ancestorPid, (find?_pid_none recs x).mpr hx] at ha
          simp at ha
      · exact h.1
    rw [show rootPids recs = level recs 0 from rfl,
      count_levelsFrom_zero recs x hzero fuel 0, List.count_eq_zero_of_not_mem hx]

theorem rootPids_nodup (recs : List Record) (hnd : (recs.map (fun r => r.PID)).Nodup) :
    (rootPids recs).Nodup :=
  List.Nodup.sublist (List.Sublist.map _ (List.filter_sublist _)) hnd

theorem kids_nodup (recs : List Record) (hnd : (recs.map (fun r => r.PID)).Nodup) (p : Int) :
    (kids recs p).Nodup :=
  List.Nodup.sublist (List.Sublist.map _ (List.filter_sublist _)) hnd

theorem mem_rootPids (recs : List Record) (p : Int) :
    p ∈ rootPids recs ↔
      ∃ r ∈ recs, r.PID = p ∧ r.PID ≠ 0 ∧ ∀ q ∈ recs, q.PID ≠ r.PPID := by
  unfold rootPids
  simp only [List.mem_map, List.mem_filter, Bool.and_eq_true, decide_eq_true_eq, not_exists,
    not_and]
  constructor
  · rintro ⟨r, ⟨hr, hout, hz⟩, rfl⟩
    exact ⟨r, hr, rfl, hz, fun q hq => hout q hq⟩
  · rintro ⟨r, hr, rfl, hz, hout⟩
    exact ⟨r, ⟨hr, fun q hq => hout q hq, hz⟩, rfl⟩

theorem mem_kids (recs : List Record) (p c : Int) :
    c ∈ kids recs p ↔ ∃ r ∈ recs, r.PID = c ∧ r.PPID = p := by
  unfold kids
  simp only [List.mem_map, List.mem_filter, decide_eq_true_eq]
  constructor
  · rintro ⟨r, ⟨hr, hp⟩, rfl⟩
    exact ⟨r, hr, rfl, hp⟩
  · rintro ⟨r, hr, rfl, hp⟩
    exact ⟨r, ⟨hr, hp⟩, rfl⟩

theorem exampleRecords_acyclic :
    ∀ r ∈ exampleRecords, ∀ k, 0 < k →
      ancestorPid exampleRecords k r.PID ≠ some r.PID := by
  intro r hr k hk
  simp only [exampleRecords, List.mem_cons, List.mem_singleton, List.not_mem_nil,
    or_false] at hr
  rcases hr with rfl | rfl | rfl | rfl <;>
    match k, hk with
    | 1, _ => decide
    | 2, _ => decide
    | 3, _ => decide
    | 4, _ => decide
    | k + 5, _ => simp [ancestorPid, exampleRecords]

/-- C7: for records with distinct non-zero pids of which none is its own
ancestor through the parent pid, the forest built by the linking step holds every
record exactly once (the walk from the roots, at any depth bound of at least the
number of records, is a rearrangement of the pids of the records, and the nodes
carry the records), its roots are, each once, exactly the records whose parent
pid is not the pid of a record, and the children of each node are, each once,
exactly the records whose parent pid is the pid of the node. -/
theorem linkNodes_forest (recs : List Record)
    (hnd : (recs.map (fun r => r.PID)).Nodup) (hnz : ∀ r ∈ recs, r.PID ≠ 0)
    (hacyc : ∀ r ∈ recs, ∀ k, 0 < k → ancestorPid recs k r.PID ≠ some r.PID) :
    (∀ fuel, recs.length ≤ fuel →
      ((linkNodes (mkNodes recs)).walk fuel).Perm (recs.map (fun r => r.PID))) ∧
    (linkNodes (mkNodes recs)).nodes.map (fun n => (⟨n.PID, n.PPID, n.Comm⟩ : Record)) = recs ∧
    (linkNodes (mkNodes recs)).roots.Nodup ∧
    (∀ p, p ∈ (linkNodes (mkNodes recs)).roots ↔
      ∃ r ∈ recs, r.PID = p ∧ ∀ q ∈ recs, q.PID ≠ r.PPID) ∧
    (∀ n ∈ (linkNodes (mkNodes recs)).nodes, n.Children.Nodup ∧
      ∀ c, c ∈ n.Children ↔ ∃ r ∈ recs, r.PID = c ∧ r.PPID = n.PID) := by
  refine ⟨fun fuel hfuel => walk_linked_perm recs hnd hnz hacyc fuel hfuel, ?_, ?_, ?_, ?_⟩
  · rw [linkNodes_mkNodes]
    simp only [List.map_map]
    exact (List.map_congr_left (fun r _ => rfl)).trans (List.map_id recs)
  · rw [linkNodes_mkNodes]
    exact rootPids_nodup recs hnd
  · intro p
    rw [linkNodes_mkNodes]
    simp only [mem_rootPids]
    constructor
    · rintro ⟨r, hr, hp, -, hout⟩
      exact ⟨r, hr, hp, hout⟩
    · rintro ⟨r, hr, hp, hout⟩
      exact ⟨r, hr, hp, hnz r hr, hout⟩
  · intro n hn
    rw [linkNodes_mkNodes] at hn
    obtain ⟨r, -, rfl⟩ := List.mem_map.mp hn
    exact ⟨kids_nodup recs hnd r.PID, fun c => mem_kids recs r.PID c⟩

theorem linkNodes_forest_witness :
    (exampleRecords.map (fun r => r.PID)).Nodup ∧
    (∀ r ∈ exampleRecords, r.PID ≠ 0) ∧
    (∀ r ∈ exampleRecords, ∀ k, 0 < k →
      ancestorPid exampleRecords k r.PID ≠ some r.PID) ∧
    ((∀ fuel, exampleRecords.length ≤ fuel →
      ((linkNodes (mkNodes exampleRecords)).walk fuel).Perm
        (exampleRecords.map (fun r => r.PID))) ∧
    (linkNodes (mkNodes exampleRecords)).nodes.map
      (fun n => (⟨n.PID, n.PPID, n.Comm⟩ : Record)) = exampleRecords ∧
    (linkNodes (mkNodes exampleRecords)).roots.Nodup ∧
    (∀ p, p ∈ (linkNodes (mkNodes exampleRecords)).roots ↔
      ∃ r ∈ exampleRecords, r.PID = p ∧ ∀ q ∈ exampleRecords, q.PID ≠ r.PPID) ∧
    (∀ n ∈ (linkNodes (mkNodes exampleRecords)).nodes, n.Children.Nodup ∧
      ∀ c, c ∈ n.Children ↔ ∃ r ∈ exampleRecords, r.PID = c ∧ r.PPID = n.PID)) :=
  ⟨by decide, by decide, exampleRecords_acyclic,
    linkNodes_forest exampleRecords (by decide) (by decide) exampleRecords_acyclic⟩

/-- C8, amended: for records with distinct pids, every record with a non-zero pid
whose parent pid is not the pid of a record is one of the roots returned by the
linking step, and no returned root has pid 0; a record whose parent pid is its
own pid is not among the roots. -/
theorem linkNodes_roots (recs : List Record)
    (hnd : (recs.map (fun r => r.PID)).Nodup) :
    (∀ r ∈ recs, r.PID ≠ 0 → (∀ q ∈ recs, q.PID ≠ r.PPID) →
      r.PID ∈ (linkNodes (mkNodes recs)).roots) ∧
    (0 : Int) ∉ (linkNodes (mkNodes recs)).roots ∧
    (∀ r ∈ recs, r.PPID = r.PID → r.PID ∉ (linkNodes (mkNodes recs)).roots) := by
  rw [linkNodes_mkNodes]
  refine ⟨?_, ?_, ?_⟩
  · intro r hr hz hout
    exact (mem_rootPids recs r.PID).mpr ⟨r, hr, rfl, hz, hout⟩
  · intro h
    obtain ⟨r, -, hp, hz, -⟩ := (mem_rootPids recs 0).mp h
    exact hz hp
  · intro r hr hself h
    obtain ⟨r', hr', hp, -, hout⟩ := (mem_rootPids recs r.PID).mp h
    have heq : r' = r := by
      have hinj := List.inj_on_of_nodup_map hnd
      exact hinj hr' hr hp
    subst heq
    exact hout r' hr' hself.symm

theorem linkNodes_roots_witness :
    (exampleRecords.map (fun r => r.PID)).Nodup ∧
    ((∀ r ∈ exampleRecords, r.PID ≠ 0 → (∀ q ∈ exampleRecords, q.PID ≠ r.PPID) →
      r.PID ∈ (linkNodes (mkNodes exampleRecords)).roots) ∧
    (0 : Int) ∉ (linkNodes (mkNodes exampleRecords)).roots ∧
    (∀ r ∈ exampleRecords, r.PPID = r.PID →
      r.PID ∉ (linkNodes (mkNodes exampleRecords)).roots)) :=
  ⟨by decide, linkNodes_roots exampleRecords (by decide)⟩

/-! ## The event decoder on well-formed samples -/

theorem take_indexOf_eq_takeWhile (l : List Byte) (a : Byte) :
    l.take (l.indexOf a) = l.takeWhile (fun b => decide (b ≠ a)) := by
  induction l with
  | nil => rfl
  | cons x xs ih =>
    by_cases h : x = a
    · subst h
      simp [List.indexOf_cons_self, List.takeWhile_cons]
    · have h' : ¬ a = x := fun e => h e.symm
      rw [List.indexOf_cons_ne _ h, List.take_succ_cons, ih, List.takeWhile_cons]
      simp [h]

theorem binaryRead_of_length (raw : List Byte) (h : 24 ≤ raw.length) :
    binaryRead raw = some ⟨leUint32 (raw.getD 0 0) (raw.getD 1 0) (raw.getD 2 0) (raw.getD 3 0),
      (raw.drop 8).take 16⟩ := by
  match raw, h with
  | b0 :: b1 :: b2 :: b3 :: p0 :: p1 :: p2 :: p3 :: rest, h =>
    have hrest : ¬ rest.length < 16 := by
      simp only [List.length_cons] at h
      omega
    simp [binaryRead, hrest]

theorem binaryRead_short (raw : List Byte) (h : raw.length < 24) : binaryRead raw = none := by
  unfold binaryRead
  split
  · rename_i rest
    rw [if_pos]
    simp only [List.length_cons] at h
    omega
  · rfl

/-- A sample shorter than the 24 bytes of the struct is dropped, and the read loop
goes on with the next read. -/
theorem readLoop_short_record (raw : List Byte) (now : Nat) (rest : List ReadResult)
    (h : raw.length < 24) :
    decode raw now = DecodeResult.dropped ∧
      readLoop (ReadResult.record raw now :: rest) = readLoop rest := by
  have hd : decode raw now = DecodeResult.dropped := by
    simp only [decode, binaryRead_short raw h]
  exact ⟨hd, by simp only [readLoop, hd]⟩

/-- A sample of at least 24 bytes whose command field holds a zero byte is decoded
as the wire format asks: the little-endian pid and the bytes of the field before
the first zero byte. -/
theorem decode_terminated (raw : List Byte) (now : Nat) (h : 24 ≤ raw.length)
    (hz : (0 : Byte) ∈ (raw.drop 8).take 16) :
    ∃ msg, decodeSpec raw now = some msg ∧ decode raw now = DecodeResult.sent msg := by
  have hspec : decodeSpec raw now = some (Msg.newProcess
      (leUint32 (raw.getD 0 0) (raw.getD 1 0) (raw.getD 2 0) (raw.getD 3 0))
      (goString (((raw.drop 8).take 16).takeWhile (fun b => decide (b ≠ 0)))) now) := by
    simp only [decodeSpec, if_neg (Nat.not_lt.mpr h)]
  refine ⟨_, hspec, ?_⟩
  have hidx : List.indexOf (0 : Byte) ((raw.drop 8).take 16) < ((raw.drop 8).take 16).length :=
    List.indexOf_lt_length.mpr hz
  simp only [decode, binaryRead_of_length raw h, IndexByte, if_pos hidx]
  rw [if_neg (by omega)]
  simp only [Int.toNat_ofNat, take_indexOf_eq_takeWhile]

/-- The read loop over samples each of which is either shorter than 24 bytes or
holds a zero byte in its command field: it forwards exactly the decodings of the
samples of at least 24 bytes, in order, and is still reading. -/
theorem readLoop_terminated_records (recs : List (List Byte × Nat))
    (h : ∀ r ∈ recs, r.1.length < 24 ∨ (0 : Byte) ∈ (r.1.drop 8).take 16) :
    readLoop (recs.map (fun r => ReadResult.record r.1 r.2)) =
      (recs.filterMap (fun r => decodeSpec r.1 r.2), LoopState.reading) := by
  induction recs with
  | nil => rfl
  | cons r rs ih =>
    have ih' := ih (fun q hq => h q (List.mem_cons_of_mem _ hq))
    by_cases hlen : r.1.length < 24
    · rw [List.map_cons, (readLoop_short_record r.1 r.2 _ hlen).2, ih', List.filterMap_cons]
      simp only [decodeSpec, if_pos hlen]
    · have hz : (0 : Byte) ∈ (r.1.drop 8).take 16 := by
        rcases h r (List.mem_cons_self _ _) with h1 | h1
        · exact absurd h1 hlen
        · exact h1
      obtain ⟨msg, hspec, hdec⟩ := decode_terminated r.1 r.2 (Nat.not_lt.mp hlen) hz
      rw [List.map_cons, List.filterMap_cons, hspec]
      simp only [readLoop, hdec, ih']

end KernelRuler
